import Mathlib

/-!
Shallow embedding of `scipy/sparse/lil.py` (row-linked-list sparse matrix)
and proofs about its element access, invariants, slicing, fancy indexing,
CSR conversion, reshape and scalar multiplication.

Matrix values are modelled as rationals (the dtype is a numeric kind,
floating-point by default; no claim here depends on rounding, and the only
value operations the embedded code performs are comparison with zero and
multiplication by a scalar).  Python lists become Lean lists, numpy integer
arrays become `List Int` / `List (List Int)`, and fallible operations
return `Except String`.
-/

namespace LilSpec

/-- Leftmost insertion point: the number of leading elements of `l` that are
smaller than `j`.  This is the contract of Python's `bisect_left(l, j)`
(the leftmost index `pos` with `l[pos] >= j`), which `lil.py` only ever
applies to its sorted per-row column lists; on sorted lists the binary
search and this linear characterisation agree. -/
def bisect_left (l : List Nat) (j : Nat) : Nat :=
  match l with
  | [] => 0
  | a :: rest => if a < j then bisect_left rest j + 1 else 0

/-- The LIL matrix: `self.shape`, `self.rows` (per-row sorted column-index
lists) and `self.data` (the parallel per-row value lists). -/
structure lil_matrix where
  shape : Nat × Nat
  rows : List (List Nat)
  data : List (List ℚ)
deriving DecidableEq, Repr

/-- `lil_matrix((M, N))` (the `__init__` shape-tuple branch): one fresh empty
column list and one fresh empty value list per row. -/
def emptyLil (M N : Nat) : lil_matrix :=
  ⟨(M, N), List.replicate M [], List.replicate M []⟩

/-- numpy-style resolution of a possibly negative index against extent `e`:
a negative index is offset by `e`; anything still outside `[0, e)` raises
an IndexError. -/
def npIndex (e : Nat) (i : Int) : Except String Nat :=
  let i' := if i < 0 then i + e else i
  if i' < 0 ∨ (e : Int) ≤ i' then .error "index out of bounds"
  else .ok i'.toNat

/-- `_insertat2(row, data, j, x)`: resolve a negative column index, bounds
check it, then binary-search the row; a nonzero `x` is appended, inserted
or overwritten at the insertion point, while a zero `x` erases the entry at
`j` if present and otherwise does nothing.  (The `np.isscalar` check and
the dtype conversion of the source are the identity here: `x` is already a
scalar of the element type.) -/
def insertat2 (N : Nat) (row : List Nat) (data : List ℚ) (j : Int) (x : ℚ) :
    Except String (List Nat × List ℚ) :=
  let j' := if j < 0 then j + N else j
  if j' < 0 ∨ (N : Int) ≤ j' then .error "column index out of bounds"
  else
    let jn := j'.toNat
    let pos := bisect_left row jn
    if x ≠ 0 then
      if pos = row.length then .ok (row ++ [jn], data ++ [x])
      else if row.getD pos 0 ≠ jn then
        .ok (row.insertIdx pos jn, data.insertIdx pos x)
      else .ok (row, data.set pos x)
    else
      if pos < row.length ∧ row.getD pos 0 = jn then
        .ok (row.eraseIdx pos, data.eraseIdx pos)
      else .ok (row, data)

/-- The scalar-pair write path of `__setitem__`: both indices are lifted to
1×1 arrays and `self._insertat2(self.rows[ii], self.data[ii], jj, x)` runs
once; `self.rows[ii]` follows numpy negative-index wraparound against the
length of the row array. -/
def set1 (m : lil_matrix) (i j : Int) (x : ℚ) : Except String lil_matrix := do
  let ir ← npIndex m.rows.length i
  let rd ← insertat2 m.shape.2 (m.rows.getD ir []) (m.data.getD ir []) j x
  .ok { m with rows := m.rows.set ir rd.1, data := m.data.set ir rd.2 }

/-- A finite sequence of single-element `set(i, j, x)` calls, applied left
to right. -/
def setMany (m : lil_matrix) (ops : List (Int × Int × ℚ)) :
    Except String lil_matrix :=
  ops.foldlM (fun m op => set1 m op.1 op.2.1 op.2.2) m

/-- The lookup core of `_get1`: binary search `columns[i]` and return the
stored value, or the additive identity when absent.  Mirrors the source's
`pos != len(data) and row[pos] == j` guard. -/
def rowLookup (row : List Nat) (dat : List ℚ) (jn : Nat) : ℚ :=
  let pos := bisect_left row jn
  if pos ≠ dat.length ∧ row.getD pos 0 = jn then dat.getD pos 0 else 0

/-- `_get1(i, j)`: negative-index wraparound and bounds checks on both axes
against `self.shape`, then the binary-search lookup. -/
def get1 (m : lil_matrix) (i j : Int) : Except String ℚ :=
  let i' := if i < 0 then i + m.shape.1 else i
  if i' < 0 ∨ (m.shape.1 : Int) ≤ i' then .error "row index out of bounds"
  else
    let j' := if j < 0 then j + m.shape.2 else j
    if j' < 0 ∨ (m.shape.2 : Int) ≤ j' then .error "column index out of bounds"
    else .ok (rowLookup (m.rows.getD i'.toNat []) (m.data.getD i'.toNat []) j'.toNat)

/-- `getnnz`: the sum of the per-row value-list lengths. -/
def getnnz (m : lil_matrix) : Nat := (m.data.map List.length).sum

/-- The data-structure invariant of the LIL representation: the row and data
arrays have one entry per matrix row; each column list is strictly
increasing, in bounds, and of the same length as its value list; and no
stored value is the additive identity. -/
def Inv (m : lil_matrix) : Prop :=
  m.rows.length = m.shape.1 ∧ m.data.length = m.shape.1 ∧
    ∀ p ∈ m.rows.zip m.data,
      p.1.Sorted (· < ·) ∧ p.1.length = p.2.length ∧
      (∀ c ∈ p.1, c < m.shape.2) ∧ ∀ x ∈ p.2, x ≠ 0

instance (m : lil_matrix) : Decidable (Inv m) := by
  unfold Inv; infer_instance

/-! ### Slices and index normalization -/

/-- A Python `slice(start, stop, step)` object with optional signed fields. -/
structure PySlice where
  start : Option Int
  stop : Option Int
  step : Option Int
deriving DecidableEq, Repr

/-- Python `range(start, stop, step)` for a nonzero step, as the explicit
list it denotes: `max 0 ⌈(stop-start)/step⌉` elements `start + k*step`. -/
def rangeLen (start stop step : Int) : Nat :=
  if 0 < step then ((stop - start).toNat + (step.toNat - 1)) / step.toNat
  else if step < 0 then ((start - stop).toNat + ((-step).toNat - 1)) / (-step).toNat
  else 0

def rangeList (start stop step : Int) : List Int :=
  (List.range (rangeLen start stop step)).map (fun k => start + k * step)

/-- `_slicetoseq(j, shape)`: `step = j.step or 1` (`None` and `0` both fall
back to `1`); a present negative bound is offset by the extent; an absent
`start` becomes `0` for positive step and `shape` for negative step; an
absent `stop` becomes `shape` for positive step and `-1` for negative
step; the slice then expands to `list(range(start, stop, step))`. -/
def slicetoseq (s : PySlice) (shape : Nat) : List Int :=
  let step : Int := match s.step with
    | none => 1
    | some st => if st = 0 then 1 else st
  let start : Int := match s.start with
    | some st => if st < 0 then (shape : Int) + st else st
    | none => if 0 < step then 0 else (shape : Int)
  let stop : Int := match s.stop with
    | some sp => if sp < 0 then (shape : Int) + sp else sp
    | none => if 0 < step then (shape : Int) else -1
  rangeList start stop step

/-- One axis of a two-part index expression: a scalar integer, a
one-dimensional integer sequence, or a slice. -/
inductive AxisIx where
  | scalar (v : Int)
  | arr (l : List Int)
  | sl (s : PySlice)
deriving DecidableEq, Repr

def isSlice : AxisIx → Bool
  | .sl _ => true
  | _ => false

/-- The unrestricted default slice `slice(None)`. -/
def fullSlice : PySlice := ⟨none, none, none⟩

/-- `np.atleast_1d` after slice expansion: scalars become one-element
sequences, sequences stay, slices expand against the axis extent. -/
def expand1 (a : AxisIx) (extent : Nat) : List Int :=
  match a with
  | .scalar v => [v]
  | .arr l => l
  | .sl s => slicetoseq s extent

/-- `np.atleast_2d` on a scalar or 1-D axis part (the non-slice branch). -/
def atleast2d : AxisIx → List (List Int)
  | .scalar v => [[v]]
  | .arr l => [l]
  | .sl _ => []

/-- The numpy shape of a rectangular nested list. -/
def gridShape (g : List (List α)) : Nat × Nat := (g.length, (g.headD []).length)

/-- The non-slice broadcast of `__getitem__`/`__setitem__`: equal shapes
pass through; a 1×1 side is repeated to the other shape; two arrays with
the same trailing dimension and a single leading row on one side are tiled
by `np.vstack`; anything else is a shape mismatch. -/
def broadcast2 (i j : List (List Int)) :
    Except String (List (List Int) × List (List Int)) :=
  if gridShape j = gridShape i then .ok (i, j)
  else if gridShape i = (1, 1) then
    .ok (j.map (fun r => r.map (fun _ => (i.headD []).headD 0)), j)
  else if gridShape j = (1, 1) then
    .ok (i, i.map (fun r => r.map (fun _ => (j.headD []).headD 0)))
  else if (gridShape i).2 = (gridShape j).2 then
    if (gridShape i).1 = 1 then .ok (List.replicate (gridShape j).1 (i.headD []), j)
    else if (gridShape j).1 = 1 then .ok (i, List.replicate (gridShape i).1 (j.headD []))
    else .error "shape mismatch: objects cannot be broadcast to a single shape"
  else .error "shape mismatch: objects cannot be broadcast to a single shape"

/-- Index normalization shared by `__getitem__` and `__setitem__`: when
either axis is a slice both axes are lifted to 1-D and combined by outer
product (`np.outer(i, ones)` / `np.vstack([j]*...)`); otherwise both are
lifted to 2-D and broadcast.  `none` reports an empty expanded slice, on
which the source returns early. -/
def normalizeIx (m : lil_matrix) (ia ja : AxisIx) :
    Except String (Option (List (List Int) × List (List Int))) :=
  if isSlice ia || isSlice ja then
    let iseq := expand1 ia m.shape.1
    if isSlice ia = true ∧ iseq = [] then .ok none
    else
      let jseq := expand1 ja m.shape.2
      if isSlice ja = true ∧ jseq = [] then .ok none
      else .ok (some (iseq.map (fun v => List.replicate jseq.length v),
                      List.replicate iseq.length jseq))
  else
    (broadcast2 (atleast2d ia) (atleast2d ja)).map some

/-! ### Bulk read (`__getitem__`) -/

/-- Result of `__getitem__`: a bare scalar, a freshly built matrix (carried
here as the dense grid of values handed to the `lil_matrix` constructor),
or Python `None` (the early `return` on an empty expanded slice). -/
inductive ReadResult where
  | scalar (x : ℚ)
  | mat (g : List (List ℚ))
  | noneRes
deriving DecidableEq, Repr

def isMat : ReadResult → Bool
  | .mat _ => true
  | _ => false

/-- The element grid `[[self._get1(i[ii,jj], j[ii,jj]) ...]]` built in
row-major order. -/
def gridGet (m : lil_matrix) (I J : List (List Int)) :
    Except String (List (List ℚ)) :=
  (I.zip J).mapM (fun rc => (rc.1.zip rc.2).mapM (fun p => get1 m p.1 p.2))

/-- `__getitem__(index)` for a two-part index: a bare scalar is returned
exactly when the normalized arrays are 1×1 and neither axis was a slice
(`slicemat` stays 0); otherwise the grid of `_get1` values becomes a new
matrix.  The `ndim > 1` guard of the source is unreachable for the scalar,
sequence and slice axis forms modelled here. -/
def getitem (m : lil_matrix) (ia ja : AxisIx) : Except String ReadResult :=
  match normalizeIx m ia ja with
  | .error e => .error e
  | .ok none => .ok .noneRes
  | .ok (some (I, J)) =>
    if (isSlice ia || isSlice ja) = false ∧ gridShape I = gridShape J ∧
        gridShape I = (1, 1) then
      (get1 m ((I.headD []).headD 0) ((J.headD []).headD 0)).map .scalar
    else (gridGet m I J).map .mat

/-! ### Bulk write (`__setitem__`) -/

/-- The right-hand side of `__setitem__`: a scalar, a dense array, or
another sparse matrix. -/
inductive SetVal where
  | scalarV (q : ℚ)
  | dense (g : List (List ℚ))
  | sparse (s : lil_matrix)
deriving DecidableEq, Repr

def isSparse : SetVal → Bool
  | .sparse _ => true
  | _ => false

/-- `toarray`: a zero-filled dense `shape` array with every stored entry
written at its coordinates (`d[i, j] = self.data[i][pos]`); as in the
source's overwrite loop, a later duplicate column would win. -/
def toarray (m : lil_matrix) : List (List ℚ) :=
  (List.range m.shape.1).map (fun i =>
    (List.range m.shape.2).map (fun j =>
      ((m.rows.getD i []).zip (m.data.getD i [])).foldl
        (fun acc p => if p.1 = j then p.2 else acc) 0))

/-- The element-wise write loop `for ii, jj, xx in zip(...): _insertat2`. -/
def setPairs (m : lil_matrix) (ps : List (Int × Int × ℚ)) :
    Except String lil_matrix :=
  ps.foldlM (fun m p => set1 m p.1 p.2.1 p.2.2) m

/-- The body of `__setitem__` after index normalization, given the
broadcast coordinate grids `I`, `J`.  The sparse 1×1 branch reproduces the
source faithfully, including its slip: the column handed to `_insertat2`
is `j[jj]` — the row of the 2-D column grid selected by the column *value*
`jj` — so numpy either raises an IndexError (value out of range as a row
number), raises an ambiguous-truth ValueError (selected row longer than
one), or, for a single-entry row, behaves as that entry.  The source's
one-row sparse tiling branch misspells `np.concatenate`/`toarray` and
raises an AttributeError before writing anything. -/
def setBody (m : lil_matrix) (I J : List (List Int)) (x : SetVal) :
    Except String lil_matrix :=
  match x with
  | .sparse s =>
    if s.shape = (1, 1) then
      match get1 s 0 0 with
      | .error e => .error e
      | .ok x00 =>
        (I.flatten.zip J.flatten).foldlM (fun m p =>
          match npIndex J.length p.2 with
          | .error e => .error e
          | .ok r =>
            let rowJ := J.getD r []
            if rowJ.length = 1 then set1 m p.1 (rowJ.headD 0) x00
            else .error "ValueError: ambiguous truth value of an array") m
    else if s.shape = gridShape I then
      setPairs m (I.flatten.zip (J.flatten.zip (toarray s).flatten)
        |>.map (fun p => (p.1, p.2.1, p.2.2)))
    else if s.shape.2 = (gridShape I).2 ∧ s.shape.1 = 1 then
      .error "AttributeError"
    else .error "shape mismatch: objects cannot be broadcast to a single shape"
  | _ =>
    let xg : List (List ℚ) := match x with
      | .scalarV q => [[q]]
      | .dense g => g
      | .sparse _ => []
    if gridShape xg = (1, 1) then
      let x00 := (xg.headD []).headD 0
      (I.flatten.zip J.flatten).foldlM (fun m p => set1 m p.1 p.2 x00) m
    else if gridShape I = gridShape xg then
      setPairs m (I.flatten.zip (J.flatten.zip xg.flatten)
        |>.map (fun p => (p.1, p.2.1, p.2.2)))
    else if (gridShape xg).2 = (gridShape I).2 ∧ (gridShape xg).1 = 1 then
      setPairs m (I.flatten.zip (J.flatten.zip
          (List.replicate (gridShape I).1 (xg.headD [])).flatten)
        |>.map (fun p => (p.1, p.2.1, p.2.2)))
    else .error "shape mismatch: objects cannot be broadcast to a single shape"

/-- `__setitem__(index, x)` for a two-part index.  The full-matrix replace
shortcut fires when `x` is sparse and both axes are the unrestricted
default slice: `lil_matrix(x, dtype=self.dtype)` converts the source (the
dtype conversion, outside this file's source, preserves contents) and its
`rows`/`data` are installed wholesale.  An empty expanded slice makes the
write a no-op. -/
def setitem (m : lil_matrix) (ia ja : AxisIx) (x : SetVal) :
    Except String lil_matrix :=
  if isSparse x = true ∧ ia = .sl fullSlice ∧ ja = .sl fullSlice then
    match x with
    | .sparse s => .ok { m with rows := s.rows, data := s.data }
    | _ => .ok m
  else
    match normalizeIx m ia ja with
    | .error e => .error e
    | .ok none => .ok m
    | .ok (some (I, J)) => setBody m I J x

/-! ### CSR conversion, reshape, scalar multiplication -/

/-- `np.cumsum` with a running accumulator. -/
def cumsumFrom (acc : Nat) : List Nat → List Nat
  | [] => []
  | a :: r => (acc + a) :: cumsumFrom (acc + a) r

def cumsum (l : List Nat) : List Nat := cumsumFrom 0 l

/-- `tocsr`: `indptr` is `[0]` followed by the cumulative sums of the
per-row column-list lengths; `indices` and `data` are the row-wise
concatenations of the column lists and value lists. -/
def tocsr (m : lil_matrix) : List Nat × List Nat × List ℚ :=
  (0 :: cumsum (m.rows.map List.length), m.rows.flatten, m.data.flatten)

/-- `np.unravel_index(flat, shape)` in default row-major order; raises when
the flat index does not fit the shape. -/
def unravel_index (flat : Nat) (s : Nat × Nat) : Except String (Nat × Nat) :=
  if flat < s.1 * s.2 then .ok (flat / s.2, flat % s.2)
  else .error "ValueError: index is out of bounds"

/-- `reshape(shape)`: build a fresh empty matrix of the new shape and, for
every stored entry, write `self[i, j]` at the coordinates obtained by
unravelling the old flat coordinate `i*N + j` under the new shape.  The
total element counts are never compared. -/
def reshape (m : lil_matrix) (s : Nat × Nat) : Except String lil_matrix :=
  m.rows.enum.foldlM (fun new p =>
    p.2.foldlM (fun new j =>
      match unravel_index (p.1 * m.shape.2 + j) s with
      | .error e => .error e
      | .ok rc =>
        match get1 m p.1 j with
        | .error e => .error e
        | .ok v => set1 new rc.1 rc.2 v) new)
    (emptyLil s.1 s.2)

/-- The body of the reshape loop for one stored coordinate `p`:
unravel the old flat coordinate, read `self[i, j]`, write it into the
matrix under construction. -/
def reshapeStep (m : lil_matrix) (s : Nat × Nat) (new : lil_matrix)
    (p : Nat × Nat) : Except String lil_matrix :=
  match unravel_index (p.1 * m.shape.2 + p.2) s with
  | .error e => .error e
  | .ok rc =>
    match get1 m p.1 p.2 with
    | .error e => .error e
    | .ok v => set1 new rc.1 rc.2 v

/-- `_mul_scalar(other)`: multiplying by zero returns the fresh empty
matrix of the same shape; otherwise every stored value is multiplied. -/
def mul_scalar (m : lil_matrix) (other : ℚ) : lil_matrix :=
  if other = 0 then emptyLil m.shape.1 m.shape.2
  else { m with data := m.data.map (fun rowvals => rowvals.map (fun v => v * other)) }

/-! ### Heap model for aliasing (`__init__` from a sparse source and the
full-matrix write shortcut)

Python rows are mutable list objects; whether two matrices share them is
an aliasing question, so these few operations are modelled against an
explicit heap of row cells.  A cell index plays the role of a Python
object reference. -/

/-- The heap: cell `r` holds the backing `(columns, values)` pair of one
row object. -/
structure RowHeap where
  cells : List (List Nat × List ℚ)
deriving DecidableEq, Repr

/-- A matrix as shape plus references into the heap, one per row. -/
structure LilRef where
  shape : Nat × Nat
  rowIds : List Nat
deriving DecidableEq, Repr

def heapGet (h : RowHeap) (rid : Nat) : List Nat × List ℚ :=
  h.cells.getD rid ([], [])

/-- Allocate fresh cells (Python list construction) holding `contents`. -/
def allocRows (h : RowHeap) (contents : List (List Nat × List ℚ)) :
    RowHeap × List Nat :=
  (⟨h.cells ++ contents⟩, (List.range contents.length).map (· + h.cells.length))

/-- `copy()`: `deepcopy` of `rows` and `data` — fresh cells, equal
contents. -/
def copyRef (h : RowHeap) (m : LilRef) : RowHeap × LilRef :=
  let a := allocRows h (m.rowIds.map (heapGet h))
  (a.1, ⟨m.shape, a.2⟩)

/-- The `__init__` sparse branch for a LIL source with no dtype override:
with `copy` true, `A = arg1.copy()` deep-copies; otherwise `A =
arg1.tolil()` returns `arg1` itself and `self.rows = A.rows; self.data =
A.data` installs the source's own row objects without cloning. -/
def initFromLil (h : RowHeap) (src : LilRef) (copy : Bool) : RowHeap × LilRef :=
  if copy then copyRef h src
  else (h, ⟨src.shape, src.rowIds⟩)

/-- Single-element write in the heap model: the row cell referenced by the
(wraparound-resolved) row index is mutated in place by `_insertat2`. -/
def setRef (h : RowHeap) (m : LilRef) (i j : Int) (x : ℚ) :
    Except String RowHeap := do
  let ir ← npIndex m.rowIds.length i
  let rid := m.rowIds.getD ir 0
  let rd := heapGet h rid
  let rd' ← insertat2 m.shape.2 rd.1 rd.2 j x
  .ok ⟨h.cells.set rid rd'⟩

/-- Observe row `i` of a matrix through the heap. -/
def readRowRef (h : RowHeap) (m : LilRef) (i : Nat) : List Nat × List ℚ :=
  heapGet h (m.rowIds.getD i 0)

/-- Modelled from the spec: the full-matrix assignment shortcut runs
`lil_matrix(x, dtype=self.dtype)`, whose dtype conversion (`astype`, in
the spmatrix base class, not part of this repository's source here)
produces converted contents; the spec's lifecycle rule says copied or
converted contents are cloned, so the conversion is modelled as a deep
copy, after which the target's `rows`/`data` are replaced wholesale. -/
def setitemFullRef (h : RowHeap) (m src : LilRef) : RowHeap × LilRef :=
  let a := copyRef h src
  (a.1, ⟨m.shape, a.2.rowIds⟩)

/-! ### Proof-support definitions and concrete instances -/

/-- The wraparound-resolved index shared by `_get1`, `_insertat2` and the
numpy row selection: a negative index is offset by the extent, and the
result is read as a natural number (callers bounds-check separately). -/
def resolveIx (e : Nat) (i : Int) : Nat := (if i < 0 then i + e else i).toNat

/-- First-match association lookup on (column, value) pairs; on a sorted
row this is what the binary-search lookup computes. -/
def lookupPairs (l : List (Nat × ℚ)) (d : Nat) : ℚ :=
  l.foldr (fun p acc => if p.1 = d then p.2 else acc) 0

/-- Last-write-wins lookup keyed by flattened coordinates. -/
def lookupFlat (l : List (Nat × ℚ)) (k : Nat) : ℚ :=
  l.foldl (fun acc p => if p.1 = k then p.2 else acc) 0

/-- All stored coordinates of a matrix, row by row. -/
def entryPairs (m : lil_matrix) : List (Nat × Nat) :=
  (m.rows.enum.map (fun p => p.2.map (fun j => (p.1, j)))).flatten

/-- The stored value at a coordinate (zero when absent). -/
def entryVal (m : lil_matrix) (p : Nat × Nat) : ℚ :=
  rowLookup (m.rows.getD p.1 []) (m.data.getD p.1 []) p.2

/-- The flat-coordinate map written by the reshape loop: each processed
entry overwrites its flattened old coordinate. -/
def reshapeMap (m : lil_matrix) (ts : List (Nat × Nat)) (φ : Nat → ℚ) : Nat → ℚ :=
  ts.foldl (fun ψ p k => if k = p.1 * m.shape.2 + p.2 then entryVal m p else ψ k) φ

/-- The scalar an axis part denotes when its normalized array is 1×1. -/
def axisVal : AxisIx → Int
  | .scalar v => v
  | .arr l => l.headD 0
  | .sl _ => 0

/-- The worked example of the spec: a 3×3 matrix holding 1 at (0,0), 3 at
(0,2) and 2 at (1,1). -/
def exampleMatrix : lil_matrix :=
  ⟨(3, 3), [[0, 2], [1], []], [[1, 3], [2], []]⟩

/-- A 2×2 matrix holding 7 at (0,0). -/
def sevenMatrix : lil_matrix := ⟨(2, 2), [[0], []], [[7], []]⟩

/-- A 1×1 sparse matrix holding 5. -/
def oneByOne5 : lil_matrix := ⟨(1, 1), [[0]], [[5]]⟩

/-! ## Lemmas on the binary-search insertion point -/

theorem bisect_le_length (l : List Nat) (j : Nat) : bisect_left l j ≤ l.length := by
  induction l with
  | nil => simp [bisect_left]
  | cons a r ih =>
    simp only [bisect_left, List.length_cons]
    split
    · omega
    · omega

theorem bisect_eq_length_iff {l : List Nat} {j : Nat} :
    bisect_left l j = l.length ↔ ∀ a ∈ l, a < j := by
  induction l with
  | nil => simp [bisect_left]
  | cons a r ih =>
    simp only [bisect_left, List.length_cons, List.mem_cons]
    by_cases h : a < j
    · rw [if_pos h]
      constructor
      · intro he b hb
        rcases hb with rfl | hb
        · exact h
        · exact ih.mp (by omega) b hb
      · intro hall
        have := ih.mpr (fun b hb => hall b (Or.inr hb))
        omega
    · rw [if_neg h]
      constructor
      · omega
      · intro hall
        exact absurd (hall a (Or.inl rfl)) h

theorem getD_lt_of_lt_bisect {l : List Nat} {j k : Nat} (h : k < bisect_left l j) :
    l.getD k 0 < j := by
  induction l generalizing k with
  | nil => simp [bisect_left] at h
  | cons a r ih =>
    simp only [bisect_left] at h
    by_cases haj : a < j
    · rw [if_pos haj] at h
      cases k with
      | zero => simpa using haj
      | succ k => simp only [List.getD_cons_succ]; exact ih (by omega)
    · rw [if_neg haj] at h
      omega

theorem le_getD_bisect {l : List Nat} {j : Nat} (h : bisect_left l j < l.length) :
    j ≤ l.getD (bisect_left l j) 0 := by
  induction l with
  | nil => simp at h
  | cons a r ih =>
    simp only [bisect_left] at h ⊢
    by_cases haj : a < j
    · rw [if_pos haj] at h ⊢
      simp only [List.getD_cons_succ]
      exact ih (by simpa using h)
    · rw [if_neg haj] at h ⊢
      simpa using not_lt.mp haj

theorem mem_iff_bisect {l : List Nat} {j : Nat} (hs : l.Sorted (· < ·)) :
    j ∈ l ↔ bisect_left l j < l.length ∧ l.getD (bisect_left l j) 0 = j := by
  constructor
  · intro hj
    have hne : bisect_left l j ≠ l.length := by
      intro he
      exact absurd (bisect_eq_length_iff.mp he j hj) (lt_irrefl j)
    have hlt : bisect_left l j < l.length :=
      lt_of_le_of_ne (bisect_le_length l j) hne
    refine ⟨hlt, ?_⟩
    by_contra hne2
    have hgt : j < l.getD (bisect_left l j) 0 :=
      lt_of_le_of_ne (le_getD_bisect hlt) (Ne.symm hne2)
    obtain ⟨⟨k, hk⟩, hkj⟩ := List.mem_iff_get.mp hj
    have hget : l.getD k 0 = j := by
      rw [List.getD_eq_getElem l 0 hk]
      simpa [List.get_eq_getElem] using hkj
    rcases lt_trichotomy k (bisect_left l j) with hlt2 | rfl | hgt2
    · have := getD_lt_of_lt_bisect hlt2
      omega
    · omega
    · have hrel := List.pairwise_iff_get.mp hs ⟨bisect_left l j, hlt⟩ ⟨k, hk⟩ hgt2
      simp only [List.get_eq_getElem] at hrel
      rw [List.getD_eq_getElem l 0 hlt] at hgt
      rw [List.getD_eq_getElem l 0 hk] at hget
      omega
  · rintro ⟨hlt, he⟩
    rw [List.getD_eq_getElem l 0 hlt] at he
    exact he ▸ List.getElem_mem hlt

theorem not_mem_of_bisect_eq_length {l : List Nat} {j : Nat}
    (h : bisect_left l j = l.length) : j ∉ l := by
  intro hj
  exact absurd (bisect_eq_length_iff.mp h j hj) (lt_irrefl j)

theorem sorted_insertIdx_bisect {l : List Nat} {j : Nat} (hs : l.Sorted (· < ·))
    (hj : j ∉ l) : (List.insertIdx (bisect_left l j) j l).Sorted (· < ·) := by
  induction l with
  | nil => simp [bisect_left, List.insertIdx, List.sorted_singleton]
  | cons a r ih =>
    rw [List.sorted_cons] at hs
    simp only [bisect_left]
    by_cases haj : a < j
    · rw [if_pos haj, List.insertIdx_succ_cons, List.sorted_cons]
      refine ⟨?_, ih hs.2 (fun h => hj (List.mem_cons_of_mem _ h))⟩
      intro b hb
      rcases (List.mem_insertIdx (bisect_le_length r j)).mp hb with rfl | hbr
      · exact haj
      · exact hs.1 b hbr
    · rw [if_neg haj, List.insertIdx_zero, List.sorted_cons]
      have hne : j ≠ a := fun h => hj (h ▸ List.mem_cons_self a r)
      have hja : j < a := lt_of_le_of_ne (not_lt.mp haj) hne
      refine ⟨?_, List.sorted_cons.mpr hs⟩
      intro b hb
      rcases List.mem_cons.mp hb with rfl | hbr
      · exact hja
      · exact lt_trans hja (hs.1 b hbr)

theorem bisect_insertIdx_self (l : List Nat) (j : Nat) :
    bisect_left (List.insertIdx (bisect_left l j) j l) j = bisect_left l j := by
  induction l with
  | nil => simp [bisect_left, List.insertIdx]
  | cons a r ih =>
    simp only [bisect_left]
    by_cases haj : a < j
    · rw [if_pos haj, List.insertIdx_succ_cons]
      simp only [bisect_left, if_pos haj, ih]
    · rw [if_neg haj, List.insertIdx_zero]
      simp only [bisect_left, if_neg (lt_irrefl j)]

theorem sorted_eraseIdx {l : List Nat} (hs : l.Sorted (· < ·)) (n : Nat) :
    (l.eraseIdx n).Sorted (· < ·) :=
  List.Pairwise.sublist (List.eraseIdx_sublist l n) hs

theorem not_mem_eraseIdx_of_sorted {l : List Nat} (hs : l.Sorted (· < ·)) :
    ∀ (n : Nat) (hn : n < l.length), l.get ⟨n, hn⟩ ∉ l.eraseIdx n := by
  induction l with
  | nil => intro n hn; simp at hn
  | cons a r ih =>
    intro n hn
    rw [List.sorted_cons] at hs
    cases n with
    | zero =>
      simp only [List.get_eq_getElem, List.getElem_cons_zero, List.eraseIdx_cons_zero]
      intro ha
      exact absurd (hs.1 a ha) (lt_irrefl a)
    | succ n =>
      have hn' : n < r.length := by simpa using hn
      simp only [List.get_eq_getElem, List.getElem_cons_succ, List.eraseIdx_cons_succ,
        List.mem_cons]
      rintro (he | hmem)
      · have hmem2 : r[n] ∈ r := List.getElem_mem hn'
        have := hs.1 _ hmem2
        omega
      · exact ih hs.2 n hn' hmem

/-! ## Lemmas on zipped parallel lists and association lookup -/

theorem zip_insertIdx {α β : Type} {a : α} {b : β} :
    ∀ (l : List α) (l' : List β) (n : Nat), n ≤ l.length → l.length = l'.length →
    (List.insertIdx n a l).zip (List.insertIdx n b l') =
      List.insertIdx n (a, b) (l.zip l') := by
  intro l
  induction l with
  | nil =>
    intro l' n hn he
    have hn0 : n = 0 := by simpa using hn
    subst hn0
    cases l' with
    | nil => simp [List.insertIdx]
    | cons c t => simp at he
  | cons c t ih =>
    intro l' n hn he
    cases l' with
    | nil => simp at he
    | cons d t' =>
      cases n with
      | zero => simp [List.insertIdx_zero]
      | succ n =>
        simp only [List.insertIdx_succ_cons, List.zip_cons_cons]
        rw [ih t' n (by simpa using hn) (by simpa using he)]

theorem zip_eraseIdx {α β : Type} :
    ∀ (l : List α) (l' : List β) (n : Nat), l.length = l'.length →
    (l.eraseIdx n).zip (l'.eraseIdx n) = (l.zip l').eraseIdx n := by
  intro l
  induction l with
  | nil =>
    intro l' n he
    cases l' with
    | nil => simp
    | cons d t' => simp at he
  | cons c t ih =>
    intro l' n he
    cases l' with
    | nil => simp at he
    | cons d t' =>
      cases n with
      | zero => simp
      | succ n =>
        simp only [List.eraseIdx_cons_succ, List.zip_cons_cons]
        rw [ih t' n (by simpa using he)]

theorem zip_set_right {α β : Type} {b : β} :
    ∀ (l : List α) (l' : List β) (n : Nat) (hn : n < l.length), l.length = l'.length →
    l.zip (l'.set n b) = (l.zip l').set n (l.get ⟨n, hn⟩, b) := by
  intro l
  induction l with
  | nil => intro l' n hn; simp at hn
  | cons c t ih =>
    intro l' n hn he
    cases l' with
    | nil => simp at he
    | cons d t' =>
      cases n with
      | zero => simp
      | succ n =>
        simp only [List.set_cons_succ, List.zip_cons_cons, List.get_eq_getElem,
          List.getElem_cons_succ]
        rw [ih t' n (by simpa using hn) (by simpa using he)]
        simp [List.get_eq_getElem]

theorem lookupPairs_nil {d : Nat} : lookupPairs [] d = 0 := rfl

theorem lookupPairs_cons {p : Nat × ℚ} {t : List (Nat × ℚ)} {d : Nat} :
    lookupPairs (p :: t) d = if p.1 = d then p.2 else lookupPairs t d := rfl

theorem lookupPairs_of_forall_ne {d : Nat} :
    ∀ {l : List (Nat × ℚ)}, (∀ p ∈ l, p.1 ≠ d) → lookupPairs l d = 0 := by
  intro l
  induction l with
  | nil => intro _; rfl
  | cons p t ih =>
    intro h
    rw [lookupPairs_cons, if_neg (h p (List.mem_cons_self p t))]
    exact ih (fun q hq => h q (List.mem_cons_of_mem p hq))

theorem lookupPairs_insertIdx {p : Nat × ℚ} {d : Nat} (hne : p.1 ≠ d) :
    ∀ (l : List (Nat × ℚ)) (n : Nat), n ≤ l.length →
    lookupPairs (List.insertIdx n p l) d = lookupPairs l d := by
  intro l
  induction l with
  | nil =>
    intro n hn
    have hn0 : n = 0 := by simpa using hn
    subst hn0
    simp [List.insertIdx, lookupPairs_cons, lookupPairs_nil, if_neg hne]
  | cons q t ih =>
    intro n hn
    cases n with
    | zero => simp [List.insertIdx_zero, lookupPairs_cons, if_neg hne]
    | succ n =>
      rw [List.insertIdx_succ_cons, lookupPairs_cons, lookupPairs_cons,
        ih n (by simpa using hn)]

theorem lookupPairs_eraseIdx {d : Nat} :
    ∀ (l : List (Nat × ℚ)) (n : Nat) (hn : n < l.length),
    (l.get ⟨n, hn⟩).1 ≠ d → lookupPairs (l.eraseIdx n) d = lookupPairs l d := by
  intro l
  induction l with
  | nil => intro n hn; simp at hn
  | cons q t ih =>
    intro n hn hk
    cases n with
    | zero =>
      simp only [List.get_eq_getElem, List.getElem_cons_zero] at hk
      simp [lookupPairs_cons, if_neg hk]
    | succ n =>
      simp only [List.get_eq_getElem, List.getElem_cons_succ] at hk
      rw [List.eraseIdx_cons_succ, lookupPairs_cons, lookupPairs_cons,
        ih n (by simpa using hn) hk]

theorem lookupPairs_set {p : Nat × ℚ} {d : Nat} (hp : p.1 ≠ d) :
    ∀ (l : List (Nat × ℚ)) (n : Nat) (hn : n < l.length),
    (l.get ⟨n, hn⟩).1 ≠ d → lookupPairs (l.set n p) d = lookupPairs l d := by
  intro l
  induction l with
  | nil => intro n hn; simp at hn
  | cons q t ih =>
    intro n hn hk
    cases n with
    | zero =>
      simp only [List.get_eq_getElem, List.getElem_cons_zero] at hk
      simp [lookupPairs_cons, if_neg hp, if_neg hk]
    | succ n =>
      simp only [List.get_eq_getElem, List.getElem_cons_succ] at hk
      rw [List.set_cons_succ, lookupPairs_cons, lookupPairs_cons,
        ih n (by simpa using hn) hk]

/-! ## The binary-search lookup agrees with association lookup on sorted rows -/

theorem rowLookup_nil {dat : List ℚ} {d : Nat} (hlen : dat.length = 0) :
    rowLookup [] dat d = 0 := by
  simp [rowLookup, bisect_left, hlen]

theorem rowLookup_eq_lookupPairs :
    ∀ {row : List Nat} {dat : List ℚ}, row.Sorted (· < ·) →
    row.length = dat.length → ∀ d, rowLookup row dat d = lookupPairs (row.zip dat) d := by
  intro row
  induction row with
  | nil =>
    intro dat _ hlen d
    have hd : dat = [] := List.eq_nil_of_length_eq_zero (by simpa using hlen.symm)
    subst hd
    rfl
  | cons a t ih =>
    intro dat hs hlen d
    cases dat with
    | nil => simp at hlen
    | cons v dv =>
      rw [List.sorted_cons] at hs
      have hlen' : t.length = dv.length := by simpa using hlen
      by_cases had : a < d
      · have h1 : rowLookup (a :: t) (v :: dv) d = rowLookup t dv d := by
          unfold rowLookup
          simp only [bisect_left, if_pos had, List.length_cons, List.getD_cons_succ]
          by_cases hg1 : t.getD (bisect_left t d) 0 = d
          · by_cases hg2 : bisect_left t d = dv.length
            · rw [if_neg (fun h => h.1 (by omega)), if_neg (fun h => h.1 hg2)]
            · rw [if_pos ⟨by omega, hg1⟩, if_pos ⟨hg2, hg1⟩]
          · rw [if_neg (fun h => hg1 h.2), if_neg (fun h => hg1 h.2)]
        rw [h1, List.zip_cons_cons, lookupPairs_cons, if_neg (by omega : ¬a = d)]
        exact ih hs.2 hlen' d
      · by_cases had2 : a = d
        · have h1 : rowLookup (a :: t) (v :: dv) d = v := by
            unfold rowLookup
            simp only [bisect_left, if_neg had, List.length_cons, List.getD_cons_zero]
            rw [if_pos ⟨by omega, had2⟩]
          rw [h1, List.zip_cons_cons, lookupPairs_cons, if_pos had2]
        · have h1 : rowLookup (a :: t) (v :: dv) d = 0 := by
            unfold rowLookup
            simp only [bisect_left, if_neg had, List.length_cons, List.getD_cons_zero]
            rw [if_neg (fun h => had2 h.2)]
          rw [h1, List.zip_cons_cons, lookupPairs_cons, if_neg had2]
          refine (lookupPairs_of_forall_ne (fun p hp => ?_)).symm
          have hp1 := (List.of_mem_zip hp).1
          have := hs.1 p.1 hp1
          omega

theorem rowLookup_eq_zero_of_not_mem {row : List Nat} {dat : List ℚ} {d : Nat}
    (hs : row.Sorted (· < ·)) (hlen : row.length = dat.length) (h : d ∉ row) :
    rowLookup row dat d = 0 := by
  unfold rowLookup
  rw [if_neg]
  rintro ⟨h1, h2⟩
  have hlt : bisect_left row d < row.length :=
    lt_of_le_of_ne (bisect_le_length row d) (by omega)
  exact h ((mem_iff_bisect hs).mpr ⟨hlt, h2⟩)

theorem rowLookup_mem_of_mem {row : List Nat} {dat : List ℚ} {d : Nat}
    (hs : row.Sorted (· < ·)) (hlen : row.length = dat.length) (h : d ∈ row) :
    rowLookup row dat d ∈ dat := by
  obtain ⟨hlt, hget⟩ := (mem_iff_bisect hs).mp h
  unfold rowLookup
  rw [if_pos ⟨by omega, hget⟩]
  have hld : bisect_left row d < dat.length := by omega
  rw [List.getD_eq_getElem dat 0 hld]
  exact List.getElem_mem hld

/-! ## Specification of `_insertat2` -/

theorem npIndex_eq (e : Nat) (i : Int) :
    npIndex e i =
      if (if i < 0 then i + e else i) < 0 ∨ (e : Int) ≤ (if i < 0 then i + e else i)
      then .error "index out of bounds" else .ok (resolveIx e i) := rfl

theorem npIndex_ok {e : Nat} {i : Int} {n : Nat} (h : npIndex e i = .ok n) :
    n = resolveIx e i ∧ n < e := by
  rw [npIndex_eq] at h
  by_cases hb : (if i < 0 then i + e else i) < 0 ∨ (e : Int) ≤ (if i < 0 then i + e else i)
  · rw [if_pos hb] at h
    exact absurd h (by simp)
  · rw [if_neg hb] at h
    injection h with h'
    refine ⟨h'.symm, ?_⟩
    unfold resolveIx at h'
    by_cases hi : i < 0
    · rw [if_pos hi] at hb h'
      omega
    · rw [if_neg hi] at hb h'
      omega

theorem npIndex_isOk {e : Nat} {i : Int} (h1 : -(e : Int) ≤ i) (h2 : i < e) :
    npIndex e i = .ok (resolveIx e i) := by
  rw [npIndex_eq, if_neg]
  by_cases hi : i < 0
  · rw [if_pos hi]; omega
  · rw [if_neg hi]; omega

theorem insertat2_eq (N : Nat) (row : List Nat) (dat : List ℚ) (j : Int) (x : ℚ) :
    insertat2 N row dat j x =
      if (if j < 0 then j + N else j) < 0 ∨ (N : Int) ≤ (if j < 0 then j + N else j)
      then .error "column index out of bounds"
      else
        if x ≠ 0 then
          if bisect_left row (resolveIx N j) = row.length
          then .ok (row ++ [resolveIx N j], dat ++ [x])
          else if row.getD (bisect_left row (resolveIx N j)) 0 ≠ resolveIx N j
          then .ok (List.insertIdx (bisect_left row (resolveIx N j)) (resolveIx N j) row,
                    List.insertIdx (bisect_left row (resolveIx N j)) x dat)
          else .ok (row, dat.set (bisect_left row (resolveIx N j)) x)
        else
          if bisect_left row (resolveIx N j) < row.length ∧
             row.getD (bisect_left row (resolveIx N j)) 0 = resolveIx N j
          then .ok (row.eraseIdx (bisect_left row (resolveIx N j)),
                    dat.eraseIdx (bisect_left row (resolveIx N j)))
          else .ok (row, dat) := rfl

theorem insertat2_bound_false {N : Nat} {j : Int} (h1 : -(N : Int) ≤ j) (h2 : j < N) :
    ¬((if j < 0 then j + N else j) < 0 ∨ (N : Int) ≤ (if j < 0 then j + N else j)) := by
  by_cases hi : j < 0
  · rw [if_pos hi]; omega
  · rw [if_neg hi]; omega

theorem insertat2_ok_cases {N : Nat} {row : List Nat} {dat : List ℚ} {j : Int}
    {x : ℚ} {rd : List Nat × List ℚ}
    (h : insertat2 N row dat j x = .ok rd) :
    resolveIx N j < N ∧
    ((x ≠ 0 ∧ bisect_left row (resolveIx N j) = row.length ∧
        rd = (row ++ [resolveIx N j], dat ++ [x])) ∨
     (x ≠ 0 ∧ bisect_left row (resolveIx N j) ≠ row.length ∧
        row.getD (bisect_left row (resolveIx N j)) 0 ≠ resolveIx N j ∧
        rd = (List.insertIdx (bisect_left row (resolveIx N j)) (resolveIx N j) row,
              List.insertIdx (bisect_left row (resolveIx N j)) x dat)) ∨
     (x ≠ 0 ∧ bisect_left row (resolveIx N j) ≠ row.length ∧
        row.getD (bisect_left row (resolveIx N j)) 0 = resolveIx N j ∧
        rd = (row, dat.set (bisect_left row (resolveIx N j)) x)) ∨
     (x = 0 ∧ bisect_left row (resolveIx N j) < row.length ∧
        row.getD (bisect_left row (resolveIx N j)) 0 = resolveIx N j ∧
        rd = (row.eraseIdx (bisect_left row (resolveIx N j)),
              dat.eraseIdx (bisect_left row (resolveIx N j)))) ∨
     (x = 0 ∧ ¬(bisect_left row (resolveIx N j) < row.length ∧
        row.getD (bisect_left row (resolveIx N j)) 0 = resolveIx N j) ∧
        rd = (row, dat))) := by
  rw [insertat2_eq] at h
  by_cases hb : (if j < 0 then j + N else j) < 0 ∨ (N : Int) ≤ (if j < 0 then j + N else j)
  · rw [if_pos hb] at h
    exact absurd h (by simp)
  · rw [if_neg hb] at h
    have hbound : resolveIx N j < N := by
      unfold resolveIx
      by_cases hi : j < 0
      · rw [if_pos hi] at hb ⊢; omega
      · rw [if_neg hi] at hb ⊢; omega
    refine ⟨hbound, ?_⟩
    by_cases hx : x ≠ 0
    · rw [if_pos hx] at h
      by_cases hpos : bisect_left row (resolveIx N j) = row.length
      · rw [if_pos hpos] at h
        injection h with h'
        exact Or.inl ⟨hx, hpos, h'.symm⟩
      · rw [if_neg hpos] at h
        by_cases hget : row.getD (bisect_left row (resolveIx N j)) 0 ≠ resolveIx N j
        · rw [if_pos hget] at h
          injection h with h'
          exact Or.inr (Or.inl ⟨hx, hpos, hget, h'.symm⟩)
        · rw [if_neg hget] at h
          injection h with h'
          exact Or.inr (Or.inr (Or.inl ⟨hx, hpos, not_ne_iff.mp hget, h'.symm⟩))
    · rw [if_neg hx] at h
      have hx0 : x = 0 := not_ne_iff.mp hx
      by_cases hfound : bisect_left row (resolveIx N j) < row.length ∧
          row.getD (bisect_left row (resolveIx N j)) 0 = resolveIx N j
      · rw [if_pos hfound] at h
        injection h with h'
        exact Or.inr (Or.inr (Or.inr (Or.inl ⟨hx0, hfound.1, hfound.2, h'.symm⟩)))
      · rw [if_neg hfound] at h
        injection h with h'
        exact Or.inr (Or.inr (Or.inr (Or.inr ⟨hx0, hfound, h'.symm⟩)))

theorem insertat2_isOk {N : Nat} (row : List Nat) (dat : List ℚ) {j : Int} (x : ℚ)
    (h1 : -(N : Int) ≤ j) (h2 : j < N) :
    ∃ rd, insertat2 N row dat j x = .ok rd := by
  rw [insertat2_eq, if_neg (insertat2_bound_false h1 h2)]
  by_cases hx : x ≠ 0
  · rw [if_pos hx]
    by_cases hp : bisect_left row (resolveIx N j) = row.length
    · rw [if_pos hp]; exact ⟨_, rfl⟩
    · rw [if_neg hp]
      by_cases hg : row.getD (bisect_left row (resolveIx N j)) 0 ≠ resolveIx N j
      · rw [if_pos hg]; exact ⟨_, rfl⟩
      · rw [if_neg hg]; exact ⟨_, rfl⟩
  · rw [if_neg hx]
    by_cases hf : bisect_left row (resolveIx N j) < row.length ∧
        row.getD (bisect_left row (resolveIx N j)) 0 = resolveIx N j
    · rw [if_pos hf]; exact ⟨_, rfl⟩
    · rw [if_neg hf]; exact ⟨_, rfl⟩

/-- The two nonzero insertion branches (append at the end, insert in the
middle), both expressed through `List.insertIdx` at the binary-search
position. -/
theorem insert_case_spec {row : List Nat} {dat : List ℚ} {jn : Nat} {x : ℚ}
    (hs : row.Sorted (· < ·)) (hlen : row.length = dat.length)
    (hnm : jn ∉ row) :
    (List.insertIdx (bisect_left row jn) jn row).Sorted (· < ·) ∧
    (List.insertIdx (bisect_left row jn) jn row).length =
      (List.insertIdx (bisect_left row jn) x dat).length ∧
    rowLookup (List.insertIdx (bisect_left row jn) jn row)
      (List.insertIdx (bisect_left row jn) x dat) jn = x ∧
    (∀ d, d ≠ jn →
      rowLookup (List.insertIdx (bisect_left row jn) jn row)
        (List.insertIdx (bisect_left row jn) x dat) d = rowLookup row dat d) := by
  have hple : bisect_left row jn ≤ row.length := bisect_le_length row jn
  have hple' : bisect_left row jn ≤ dat.length := by omega
  have hs' := sorted_insertIdx_bisect hs hnm
  have hlr : (List.insertIdx (bisect_left row jn) jn row).length = row.length + 1 :=
    List.length_insertIdx _ _ hple
  have hld : (List.insertIdx (bisect_left row jn) x dat).length = dat.length + 1 :=
    List.length_insertIdx _ _ hple'
  have hlen' : (List.insertIdx (bisect_left row jn) jn row).length =
      (List.insertIdx (bisect_left row jn) x dat).length := by omega
  refine ⟨hs', hlen', ?_, ?_⟩
  · unfold rowLookup
    rw [bisect_insertIdx_self]
    rw [if_pos ?_]
    · rw [List.getD_eq_getElem _ 0 (by omega)]
      exact List.getElem_insertIdx_self dat x _ hple'
    · constructor
      · omega
      · rw [List.getD_eq_getElem _ 0 (by omega)]
        exact List.getElem_insertIdx_self row jn _ hple
  · intro d hd
    have hz : (List.insertIdx (bisect_left row jn) jn row).zip
        (List.insertIdx (bisect_left row jn) x dat) =
        List.insertIdx (bisect_left row jn) (jn, x) (row.zip dat) :=
      zip_insertIdx row dat _ hple hlen
    have hzl : (row.zip dat).length = row.length := by
      rw [List.length_zip]; omega
    rw [rowLookup_eq_lookupPairs hs' hlen' d, hz,
      lookupPairs_insertIdx (Ne.symm hd) (row.zip dat) _ (by omega),
      ← rowLookup_eq_lookupPairs hs hlen d]

/-- Full specification of a successful `_insertat2`: sortedness, equal
lengths, the column bound, provenance of entries, the value now read at
the written column, the frame property at every other column, and the
erase-on-zero behaviour. -/
theorem insertat2_ok_spec {N : Nat} {row : List Nat} {dat : List ℚ} {j : Int}
    {x : ℚ} {rd : List Nat × List ℚ}
    (hs : row.Sorted (· < ·)) (hlen : row.length = dat.length)
    (h : insertat2 N row dat j x = .ok rd) :
    rd.1.Sorted (· < ·) ∧ rd.1.length = rd.2.length ∧
    resolveIx N j < N ∧
    (∀ c ∈ rd.1, c ∈ row ∨ c = resolveIx N j) ∧
    (∀ v ∈ rd.2, v ∈ dat ∨ (x ≠ 0 ∧ v = x)) ∧
    rowLookup rd.1 rd.2 (resolveIx N j) = (if x = 0 then 0 else x) ∧
    (∀ d, d ≠ resolveIx N j → rowLookup rd.1 rd.2 d = rowLookup row dat d) ∧
    (x = 0 → resolveIx N j ∉ rd.1 ∧
      rd.1.length = (if resolveIx N j ∈ row then row.length - 1 else row.length)) := by
  obtain ⟨hjN, hcases⟩ := insertat2_ok_cases h
  rcases hcases with ⟨hx, hpos, hrd⟩ | ⟨hx, hpos, hget, hrd⟩ |
    ⟨hx, hpos, hget, hrd⟩ | ⟨hx0, hpos, hget, hrd⟩ | ⟨hx0, hcond, hrd⟩
  · -- append at the end of the row
    have hnm : resolveIx N j ∉ row := not_mem_of_bisect_eq_length hpos
    have hra : row ++ [resolveIx N j] =
        List.insertIdx (bisect_left row (resolveIx N j)) (resolveIx N j) row := by
      rw [hpos, List.insertIdx_length_self]
    have hda : dat ++ [x] = List.insertIdx (bisect_left row (resolveIx N j)) x dat := by
      rw [hpos, hlen, List.insertIdx_length_self]
    rw [hrd]
    simp only [hra, hda]
    obtain ⟨c1, c2, c3, c4⟩ := insert_case_spec hs hlen hnm (x := x)
    refine ⟨c1, c2, hjN, ?_, ?_, ?_, c4, by intro hx0; exact absurd hx0 hx⟩
    · intro c hc
      rcases (List.mem_insertIdx (bisect_le_length row _)).mp hc with rfl | hcr
      · exact Or.inr rfl
      · exact Or.inl hcr
    · intro v hv
      rcases (List.mem_insertIdx (by omega)).mp hv with rfl | hvr
      · exact Or.inr ⟨hx, rfl⟩
      · exact Or.inl hvr
    · rw [c3, if_neg hx]
  · -- insert in the middle of the row
    have hposlt : bisect_left row (resolveIx N j) < row.length :=
      lt_of_le_of_ne (bisect_le_length row _) hpos
    have hnm : resolveIx N j ∉ row := by
      intro hmem
      obtain ⟨h1, h2⟩ := (mem_iff_bisect hs).mp hmem
      exact hget h2
    rw [hrd]
    obtain ⟨c1, c2, c3, c4⟩ := insert_case_spec hs hlen hnm (x := x)
    refine ⟨c1, c2, hjN, ?_, ?_, ?_, c4, by intro hx0; exact absurd hx0 hx⟩
    · intro c hc
      rcases (List.mem_insertIdx (bisect_le_length row _)).mp hc with rfl | hcr
      · exact Or.inr rfl
      · exact Or.inl hcr
    · intro v hv
      rcases (List.mem_insertIdx (by omega)).mp hv with rfl | hvr
      · exact Or.inr ⟨hx, rfl⟩
      · exact Or.inl hvr
    · rw [c3, if_neg hx]
  · -- overwrite an existing entry
    have hposlt : bisect_left row (resolveIx N j) < row.length :=
      lt_of_le_of_ne (bisect_le_length row _) hpos
    have hposd : bisect_left row (resolveIx N j) < dat.length := by omega
    have hlen2 : row.length = (dat.set (bisect_left row (resolveIx N j)) x).length := by
      rw [List.length_set]; exact hlen
    rw [hrd]
    dsimp only
    refine ⟨hs, hlen2, hjN, fun c hc => Or.inl hc, ?_, ?_, ?_,
      by intro hx0; exact absurd hx0 hx⟩
    · intro v hv
      rcases List.mem_or_eq_of_mem_set hv with hvr | rfl
      · exact Or.inl hvr
      · exact Or.inr ⟨hx, rfl⟩
    · unfold rowLookup
      rw [if_pos ⟨by rw [List.length_set]; omega, hget⟩, if_neg hx,
        List.getD_eq_getElem _ 0 (by rw [List.length_set]; omega)]
      exact List.getElem_set_self _
    · intro d hd
      have hg : row.get ⟨bisect_left row (resolveIx N j), hposlt⟩ = resolveIx N j := by
        rw [List.get_eq_getElem, ← List.getD_eq_getElem row 0 hposlt]
        exact hget
      have hzs : row.zip (dat.set (bisect_left row (resolveIx N j)) x) =
          (row.zip dat).set (bisect_left row (resolveIx N j)) (resolveIx N j, x) := by
        rw [zip_set_right row dat _ hposlt hlen, hg]
      have hzl : (row.zip dat).length = row.length := by
        rw [List.length_zip]; omega
      have hkey : ((row.zip dat).get ⟨bisect_left row (resolveIx N j), by omega⟩).1 =
          resolveIx N j := by
        simp only [List.get_eq_getElem, List.getElem_zip]
        rw [← List.getD_eq_getElem row 0 hposlt]
        exact hget
      rw [rowLookup_eq_lookupPairs hs hlen2 d, hzs,
        lookupPairs_set (Ne.symm hd) (row.zip dat) _ (by omega)
          (by rw [hkey]; exact Ne.symm hd),
        ← rowLookup_eq_lookupPairs hs hlen d]
  · -- erase an existing entry (write of the additive identity)
    have hposd : bisect_left row (resolveIx N j) < dat.length := by omega
    have hs' := sorted_eraseIdx hs (bisect_left row (resolveIx N j))
    have hlr : (row.eraseIdx (bisect_left row (resolveIx N j))).length = row.length - 1 := by
      rw [List.length_eraseIdx, if_pos hpos]
    have hld : (dat.eraseIdx (bisect_left row (resolveIx N j))).length = dat.length - 1 := by
      rw [List.length_eraseIdx, if_pos hposd]
    have hlen' : (row.eraseIdx (bisect_left row (resolveIx N j))).length =
        (dat.eraseIdx (bisect_left row (resolveIx N j))).length := by omega
    have hg : row.get ⟨bisect_left row (resolveIx N j), hpos⟩ = resolveIx N j := by
      rw [List.get_eq_getElem, ← List.getD_eq_getElem row 0 hpos]
      exact hget
    have hnm' : resolveIx N j ∉ row.eraseIdx (bisect_left row (resolveIx N j)) := by
      have := not_mem_eraseIdx_of_sorted hs (bisect_left row (resolveIx N j)) hpos
      rw [hg] at this
      exact this
    have hmem : resolveIx N j ∈ row := (mem_iff_bisect hs).mpr ⟨hpos, hget⟩
    rw [hrd]
    dsimp only
    refine ⟨hs', hlen', hjN, ?_, ?_, ?_, ?_, ?_⟩
    · intro c hc
      exact Or.inl ((List.eraseIdx_sublist row _).subset hc)
    · intro v hv
      exact Or.inl ((List.eraseIdx_sublist dat _).subset hv)
    · rw [if_pos hx0]
      exact rowLookup_eq_zero_of_not_mem hs' hlen' hnm'
    · intro d hd
      have hzl : (row.zip dat).length = row.length := by
        rw [List.length_zip]; omega
      have hkey : ((row.zip dat).get ⟨bisect_left row (resolveIx N j), by omega⟩).1 =
          resolveIx N j := by
        simp only [List.get_eq_getElem, List.getElem_zip]
        rw [← List.getD_eq_getElem row 0 hpos]
        exact hget
      rw [rowLookup_eq_lookupPairs hs' hlen' d, zip_eraseIdx row dat _ hlen,
        lookupPairs_eraseIdx (row.zip dat) _ (by omega) (by rw [hkey]; exact Ne.symm hd),
        ← rowLookup_eq_lookupPairs hs hlen d]
    · intro _
      exact ⟨hnm', by rw [hlr, if_pos hmem]⟩
  · -- write of the additive identity at an absent column: no-op
    have hnm : resolveIx N j ∉ row := by
      intro hmem
      exact hcond ((mem_iff_bisect hs).mp hmem)
    rw [hrd]
    dsimp only
    refine ⟨hs, hlen, hjN, fun c hc => Or.inl hc, fun v hv => Or.inl hv, ?_,
      fun d _ => rfl, ?_⟩
    · rw [if_pos hx0]
      exact rowLookup_eq_zero_of_not_mem hs hlen hnm
    · intro _
      exact ⟨hnm, by rw [if_neg hnm]⟩

/-! ## Specification of the scalar read and write paths -/

theorem zip_set_both {α β : Type} {a : α} {b : β} :
    ∀ (l : List α) (l' : List β) (n : Nat), l.length = l'.length →
    (l.set n a).zip (l'.set n b) = (l.zip l').set n (a, b) := by
  intro l
  induction l with
  | nil =>
    intro l' n he
    have : l' = [] := List.eq_nil_of_length_eq_zero (by simpa using he.symm)
    subst this
    simp
  | cons c t ih =>
    intro l' n he
    cases l' with
    | nil => simp at he
    | cons d t' =>
      cases n with
      | zero => simp
      | succ n =>
        simp only [List.set_cons_succ, List.zip_cons_cons]
        rw [ih t' n (by simpa using he)]

theorem getD_set_self {α : Type} {l : List α} {n : Nat} {v d : α}
    (h : n < l.length) : (l.set n v).getD n d = v := by
  rw [List.getD_eq_getElem _ _ (by rw [List.length_set]; exact h)]
  exact List.getElem_set_self _

theorem getD_set_ne {α : Type} {l : List α} {n k : Nat} {v d : α}
    (h : n ≠ k) : (l.set n v).getD k d = l.getD k d := by
  by_cases hk : k < l.length
  · rw [List.getD_eq_getElem _ _ (by rw [List.length_set]; exact hk),
      List.getD_eq_getElem _ _ hk]
    exact List.getElem_set_ne h _
  · rw [List.getD_eq_default _ _ (by rw [List.length_set]; omega),
      List.getD_eq_default _ _ (by omega)]

theorem Inv.rowFacts {m : lil_matrix} (hm : Inv m) (i : Nat) :
    (m.rows.getD i []).Sorted (· < ·) ∧
    (m.rows.getD i []).length = (m.data.getD i []).length ∧
    (∀ c ∈ m.rows.getD i [], c < m.shape.2) ∧
    (∀ v ∈ m.data.getD i [], v ≠ 0) := by
  obtain ⟨h1, h2, h3⟩ := hm
  by_cases hi : i < m.rows.length
  · have hid : i < m.data.length := by omega
    have hz : i < (m.rows.zip m.data).length := by
      rw [List.length_zip]; omega
    have hmem : (m.rows.getD i [], m.data.getD i []) ∈ m.rows.zip m.data := by
      rw [List.getD_eq_getElem _ _ hi, List.getD_eq_getElem _ _ hid]
      have hg : (m.rows.zip m.data)[i] = (m.rows[i], m.data[i]) := List.getElem_zip
      rw [← hg]
      exact List.getElem_mem hz
    exact h3 _ hmem
  · have hid : ¬ i < m.data.length := by omega
    rw [List.getD_eq_default _ _ (by omega), List.getD_eq_default _ _ (by omega)]
    refine ⟨List.sorted_nil, rfl, ?_, ?_⟩
    · intro c hc
      simp at hc
    · intro v hv
      simp at hv

theorem get1_eq (m : lil_matrix) (i j : Int) :
    get1 m i j =
      if (if i < 0 then i + m.shape.1 else i) < 0 ∨
         (m.shape.1 : Int) ≤ (if i < 0 then i + m.shape.1 else i)
      then .error "row index out of bounds"
      else if (if j < 0 then j + m.shape.2 else j) < 0 ∨
              (m.shape.2 : Int) ≤ (if j < 0 then j + m.shape.2 else j)
      then .error "column index out of bounds"
      else .ok (rowLookup (m.rows.getD (resolveIx m.shape.1 i) [])
        (m.data.getD (resolveIx m.shape.1 i) []) (resolveIx m.shape.2 j)) := rfl

theorem get1_eq_rowLookup {m : lil_matrix} {i j : Int}
    (hi1 : -(m.shape.1 : Int) ≤ i) (hi2 : i < m.shape.1)
    (hj1 : -(m.shape.2 : Int) ≤ j) (hj2 : j < m.shape.2) :
    get1 m i j = .ok (rowLookup (m.rows.getD (resolveIx m.shape.1 i) [])
      (m.data.getD (resolveIx m.shape.1 i) []) (resolveIx m.shape.2 j)) := by
  rw [get1_eq, if_neg (insertat2_bound_false hi1 hi2),
    if_neg (insertat2_bound_false hj1 hj2)]

theorem resolveIx_coe (e a : Nat) : resolveIx e a = a := by
  unfold resolveIx
  rw [if_neg (by omega)]
  omega

theorem get1_nat_eq {m : lil_matrix} {a b : Nat}
    (ha : a < m.shape.1) (hb : b < m.shape.2) :
    get1 m a b = .ok (rowLookup (m.rows.getD a []) (m.data.getD a []) b) := by
  have := get1_eq_rowLookup (m := m) (i := a) (j := b)
    (by omega) (by omega) (by omega) (by omega)
  rwa [resolveIx_coe, resolveIx_coe] at this

theorem set1_ok_elim {m m' : lil_matrix} {i j : Int} {x : ℚ}
    (hlen : m.rows.length = m.shape.1) (h : set1 m i j x = .ok m') :
    resolveIx m.shape.1 i < m.shape.1 ∧
    ∃ rd, insertat2 m.shape.2 (m.rows.getD (resolveIx m.shape.1 i) [])
        (m.data.getD (resolveIx m.shape.1 i) []) j x = .ok rd ∧
      m' = { m with rows := m.rows.set (resolveIx m.shape.1 i) rd.1,
                    data := m.data.set (resolveIx m.shape.1 i) rd.2 } := by
  unfold set1 at h
  cases hn : npIndex m.rows.length i with
  | error e =>
    rw [hn] at h
    simp [Bind.bind, Except.bind] at h
  | ok ir =>
    rw [hn] at h
    simp only [Bind.bind, Except.bind] at h
    obtain ⟨hir, hirlt⟩ := npIndex_ok hn
    rw [hlen] at hir hirlt
    subst hir
    cases hi2 : insertat2 m.shape.2 (m.rows.getD (resolveIx m.shape.1 i) [])
        (m.data.getD (resolveIx m.shape.1 i) []) j x with
    | error e =>
      rw [hi2] at h
      simp at h
    | ok rd =>
      rw [hi2] at h
      simp only at h
      injection h with h'
      exact ⟨hirlt, rd, rfl, h'.symm⟩

theorem set1_isOk {m : lil_matrix} {i j : Int} (x : ℚ)
    (hlen : m.rows.length = m.shape.1)
    (hi1 : -(m.shape.1 : Int) ≤ i) (hi2 : i < m.shape.1)
    (hj1 : -(m.shape.2 : Int) ≤ j) (hj2 : j < m.shape.2) :
    ∃ m', set1 m i j x = .ok m' := by
  unfold set1
  rw [show npIndex m.rows.length i = .ok (resolveIx m.shape.1 i) by
    rw [hlen]; exact npIndex_isOk (by omega) (by omega)]
  simp only [Bind.bind, Except.bind]
  obtain ⟨rd, hrd⟩ := insertat2_isOk (m.rows.getD (resolveIx m.shape.1 i) [])
    (m.data.getD (resolveIx m.shape.1 i) []) x hj1 hj2
  rw [hrd]
  exact ⟨_, rfl⟩

/-- A successful scalar write preserves the representation invariant and
the shape, and updates exactly one logical entry: reading back the written
coordinate yields the written value (or finds nothing after a zero write),
and every other in-range coordinate is untouched. -/
theorem set1_ok_spec {m m' : lil_matrix} {i j : Int} {x : ℚ}
    (hm : Inv m) (h : set1 m i j x = .ok m') :
    Inv m' ∧ m'.shape = m.shape ∧
    resolveIx m.shape.1 i < m.shape.1 ∧ resolveIx m.shape.2 j < m.shape.2 ∧
    (∀ a b : Nat, a < m.shape.1 → b < m.shape.2 →
      get1 m' a b =
        if a = resolveIx m.shape.1 i ∧ b = resolveIx m.shape.2 j
        then .ok (if x = 0 then 0 else x) else get1 m a b) := by
  obtain ⟨hirlt, rd, hins, hm'⟩ := set1_ok_elim hm.1 h
  obtain ⟨hsrt, hrlen, hcb, hnz⟩ := hm.rowFacts (resolveIx m.shape.1 i)
  obtain ⟨c1, c2, c3, c4, c5, c6, c7, c8⟩ := insertat2_ok_spec hsrt hrlen hins
  have hshape : m'.shape = m.shape := by rw [hm']
  have hrows' : m'.rows = m.rows.set (resolveIx m.shape.1 i) rd.1 := by rw [hm']
  have hdata' : m'.data = m.data.set (resolveIx m.shape.1 i) rd.2 := by rw [hm']
  have hinv' : Inv m' := by
    obtain ⟨h1, h2, h3⟩ := hm
    refine ⟨by rw [hrows', List.length_set, hshape, h1],
            by rw [hdata', List.length_set, hshape, h2], ?_⟩
    intro p hp
    rw [hrows', hdata', zip_set_both m.rows m.data _ (by omega)] at hp
    rcases List.mem_or_eq_of_mem_set hp with hold | rfl
    · obtain ⟨g1, g2, g3, g4⟩ := h3 p hold
      rw [hshape]
      exact ⟨g1, g2, g3, g4⟩
    · rw [hshape]
      refine ⟨c1, c2, ?_, ?_⟩
      · intro c hc
        rcases c4 c hc with hcr | rfl
        · exact hcb c hcr
        · exact c3
      · intro v hv
        rcases c5 v hv with hvr | ⟨hx, rfl⟩
        · exact hnz v hvr
        · exact hx
  have hrl : m.rows.length = m.shape.1 := hm.1
  have hdl : m.data.length = m.shape.1 := hm.2.1
  refine ⟨hinv', hshape, hirlt, c3, ?_⟩
  intro a b ha hb
  have ha' : a < m'.shape.1 := by rw [hshape]; exact ha
  have hb' : b < m'.shape.2 := by rw [hshape]; exact hb
  rw [get1_nat_eq ha' hb', get1_nat_eq ha hb, hrows', hdata']
  by_cases hai : a = resolveIx m.shape.1 i
  · subst hai
    rw [getD_set_self (by omega), getD_set_self (by omega)]
    by_cases hbj : b = resolveIx m.shape.2 j
    · subst hbj
      rw [if_pos ⟨rfl, rfl⟩, c6]
    · rw [if_neg (fun hc => hbj hc.2), c7 b hbj]
  · rw [if_neg (fun hc => hai hc.1), getD_set_ne (fun hc => hai hc.symm),
      getD_set_ne (fun hc => hai hc.symm)]

theorem emptyLil_inv (M N : Nat) : Inv (emptyLil M N) := by
  refine ⟨by simp [emptyLil], by simp [emptyLil], ?_⟩
  intro p hp
  unfold emptyLil at hp
  obtain ⟨h1, h2⟩ := List.of_mem_zip hp
  have e1 : p.1 = [] := List.eq_of_mem_replicate h1
  have e2 : p.2 = [] := List.eq_of_mem_replicate h2
  rw [e1, e2]
  refine ⟨List.sorted_nil, rfl, ?_, ?_⟩
  · intro c hc
    simp at hc
  · intro v hv
    simp at hv

theorem setMany_ok_inv :
    ∀ (ops : List (Int × Int × ℚ)) (m : lil_matrix), Inv m →
    (∀ op ∈ ops, -(m.shape.1 : Int) ≤ op.1 ∧ op.1 < m.shape.1 ∧
      -(m.shape.2 : Int) ≤ op.2.1 ∧ op.2.1 < m.shape.2) →
    ∃ m', setMany m ops = .ok m' ∧ Inv m' ∧ m'.shape = m.shape := by
  intro ops
  induction ops with
  | nil =>
    intro m hm _
    exact ⟨m, rfl, hm, rfl⟩
  | cons op t ih =>
    intro m hm hops
    obtain ⟨hb1, hb2, hb3, hb4⟩ := hops op (List.mem_cons_self op t)
    obtain ⟨m1, hm1⟩ := set1_isOk op.2.2 hm.1 hb1 hb2 hb3 hb4
    obtain ⟨hinv1, hshape1, _, _, _⟩ := set1_ok_spec hm hm1
    obtain ⟨m', hfold, hinv', hshape'⟩ := ih m1 hinv1
      (fun q hq => by rw [hshape1]; exact hops q (List.mem_cons_of_mem op hq))
    refine ⟨m', ?_, hinv', by rw [hshape', hshape1]⟩
    unfold setMany at hfold ⊢
    rw [List.foldlM_cons, hm1]
    simpa using hfold

/-- C1: starting from any matrix satisfying the representation invariant
(in particular any freshly constructed one), after every finite sequence
of single-element `set(i, j, x)` calls with in-range, possibly negative,
indices, every row's column-index list is strictly increasing with no
duplicates, every row's value list has the same length as its column
list, and no stored value equals the additive identity. -/
theorem setMany_preserves_row_invariant (m : lil_matrix)
    (ops : List (Int × Int × ℚ)) (hm : Inv m)
    (hops : ∀ op ∈ ops, -(m.shape.1 : Int) ≤ op.1 ∧ op.1 < m.shape.1 ∧
      -(m.shape.2 : Int) ≤ op.2.1 ∧ op.2.1 < m.shape.2) :
    ∃ m', setMany m ops = .ok m' ∧
      ∀ p ∈ m'.rows.zip m'.data,
        p.1.Sorted (· < ·) ∧ p.1.Nodup ∧ p.1.length = p.2.length ∧
        ∀ x ∈ p.2, x ≠ 0 := by
  obtain ⟨m', hfold, hinv', _⟩ := setMany_ok_inv ops m hm hops
  refine ⟨m', hfold, ?_⟩
  intro p hp
  obtain ⟨g1, g2, _, g4⟩ := hinv'.2.2 p hp
  exact ⟨g1, g1.nodup, g2, g4⟩

theorem setMany_preserves_row_invariant_witness :
    (Inv (emptyLil 2 2) ∧
      ∀ op ∈ ([(0, 0, 1), (-1, -1, 2), (0, 0, 0)] : List (Int × Int × ℚ)),
        -((emptyLil 2 2).shape.1 : Int) ≤ op.1 ∧ op.1 < (emptyLil 2 2).shape.1 ∧
        -((emptyLil 2 2).shape.2 : Int) ≤ op.2.1 ∧ op.2.1 < (emptyLil 2 2).shape.2) ∧
    ∃ m', setMany (emptyLil 2 2) [(0, 0, 1), (-1, -1, 2), (0, 0, 0)] = .ok m' ∧
      ∀ p ∈ m'.rows.zip m'.data,
        p.1.Sorted (· < ·) ∧ p.1.Nodup ∧ p.1.length = p.2.length ∧
        ∀ x ∈ p.2, x ≠ 0 :=
  ⟨⟨by decide, by decide⟩,
    setMany_preserves_row_invariant (emptyLil 2 2)
      [(0, 0, 1), (-1, -1, 2), (0, 0, 0)] (by decide) (by decide)⟩

/-- C2: on a matrix satisfying the representation invariant, for all
in-range (possibly negative) indices and every nonzero scalar `x`,
`set(i, j, x)` succeeds and an immediate `get(i, j)` returns `x`. -/
theorem set_then_get (m : lil_matrix) (i j : Int) (x : ℚ) (hm : Inv m)
    (hx : x ≠ 0)
    (hi1 : -(m.shape.1 : Int) ≤ i) (hi2 : i < m.shape.1)
    (hj1 : -(m.shape.2 : Int) ≤ j) (hj2 : j < m.shape.2) :
    ∃ m', set1 m i j x = .ok m' ∧ get1 m' i j = .ok x := by
  obtain ⟨m', hset⟩ := set1_isOk x hm.1 hi1 hi2 hj1 hj2
  obtain ⟨hinv', hshape, hilt, hjlt, hget⟩ := set1_ok_spec hm hset
  refine ⟨m', hset, ?_⟩
  have hs1 : m'.shape.1 = m.shape.1 := by rw [hshape]
  have hs2 : m'.shape.2 = m.shape.2 := by rw [hshape]
  have hval := hget (resolveIx m.shape.1 i) (resolveIx m.shape.2 j) hilt hjlt
  rw [if_pos ⟨rfl, rfl⟩, if_neg hx] at hval
  have hgn := get1_nat_eq (m := m') (a := resolveIx m.shape.1 i)
    (b := resolveIx m.shape.2 j) (by omega) (by omega)
  rw [hgn] at hval
  injection hval with hval'
  have hgf := get1_eq_rowLookup (m := m') (i := i) (j := j)
    (by rw [hshape]; exact hi1) (by rw [hshape]; exact hi2)
    (by rw [hshape]; exact hj1) (by rw [hshape]; exact hj2)
  rw [hshape] at hgf
  rw [hgf, hval']

theorem set_then_get_witness :
    (Inv (emptyLil 2 3) ∧ (5 : ℚ) ≠ 0 ∧
      -((emptyLil 2 3).shape.1 : Int) ≤ -1 ∧ (-1 : Int) < (emptyLil 2 3).shape.1 ∧
      -((emptyLil 2 3).shape.2 : Int) ≤ -2 ∧ (-2 : Int) < (emptyLil 2 3).shape.2) ∧
    ∃ m', set1 (emptyLil 2 3) (-1) (-2) 5 = .ok m' ∧ get1 m' (-1) (-2) = .ok 5 :=
  ⟨⟨by decide, by decide, by decide, by decide, by decide, by decide⟩,
    set_then_get (emptyLil 2 3) (-1) (-2) 5 (by decide) (by decide)
      (by decide) (by decide) (by decide) (by decide)⟩

/-- C9: on a matrix satisfying the representation invariant, for all
in-range indices, `set(i, j, 0)` succeeds, an immediate `get(i, j)`
returns the additive identity, the resolved column is absent from row
`i`'s stored column list afterwards (and the parallel value list has the
same length), and the row length decreases by exactly 1 when an entry at
that column was present and by 0 otherwise. -/
theorem set_zero_then_get (m : lil_matrix) (i j : Int) (hm : Inv m)
    (hi1 : -(m.shape.1 : Int) ≤ i) (hi2 : i < m.shape.1)
    (hj1 : -(m.shape.2 : Int) ≤ j) (hj2 : j < m.shape.2) :
    ∃ m', set1 m i j 0 = .ok m' ∧ get1 m' i j = .ok 0 ∧
      resolveIx m.shape.2 j ∉ m'.rows.getD (resolveIx m.shape.1 i) [] ∧
      (m'.rows.getD (resolveIx m.shape.1 i) []).length =
        (if resolveIx m.shape.2 j ∈ m.rows.getD (resolveIx m.shape.1 i) []
         then (m.rows.getD (resolveIx m.shape.1 i) []).length - 1
         else (m.rows.getD (resolveIx m.shape.1 i) []).length) ∧
      (m'.data.getD (resolveIx m.shape.1 i) []).length =
        (m'.rows.getD (resolveIx m.shape.1 i) []).length := by
  obtain ⟨m', hset⟩ := set1_isOk 0 hm.1 hi1 hi2 hj1 hj2
  obtain ⟨hinv', hshape, hilt, hjlt, hget⟩ := set1_ok_spec hm hset
  obtain ⟨_, rd, hins, hm'⟩ := set1_ok_elim hm.1 hset
  obtain ⟨hsrt, hrlen, _, _⟩ := hm.rowFacts (resolveIx m.shape.1 i)
  obtain ⟨_, c2, _, _, _, _, _, c8⟩ := insertat2_ok_spec hsrt hrlen hins
  obtain ⟨habs, hlformula⟩ := c8 rfl
  have hrl : m.rows.length = m.shape.1 := hm.1
  have hdl : m.data.length = m.shape.1 := hm.2.1
  have hrow' : m'.rows.getD (resolveIx m.shape.1 i) [] = rd.1 := by
    rw [hm']
    exact getD_set_self (by omega)
  have hdat' : m'.data.getD (resolveIx m.shape.1 i) [] = rd.2 := by
    rw [hm']
    exact getD_set_self (by omega)
  have hs1 : m'.shape.1 = m.shape.1 := by rw [hshape]
  have hs2 : m'.shape.2 = m.shape.2 := by rw [hshape]
  refine ⟨m', hset, ?_, ?_, ?_, ?_⟩
  · have hval := hget (resolveIx m.shape.1 i) (resolveIx m.shape.2 j) hilt hjlt
    rw [if_pos ⟨rfl, rfl⟩, if_pos rfl] at hval
    have hgn := get1_nat_eq (m := m') (a := resolveIx m.shape.1 i)
      (b := resolveIx m.shape.2 j) (by omega) (by omega)
    rw [hgn] at hval
    injection hval with hval'
    have hgf := get1_eq_rowLookup (m := m') (i := i) (j := j)
      (by rw [hshape]; exact hi1) (by rw [hshape]; exact hi2)
      (by rw [hshape]; exact hj1) (by rw [hshape]; exact hj2)
    rw [hshape] at hgf
    rw [hgf, hval']
  · rw [hrow']
    exact habs
  · rw [hrow']
    exact hlformula
  · rw [hrow', hdat']
    exact c2.symm

theorem set_zero_then_get_witness :
    (Inv exampleMatrix ∧
      -((exampleMatrix).shape.1 : Int) ≤ 0 ∧ (0 : Int) < (exampleMatrix).shape.1 ∧
      -((exampleMatrix).shape.2 : Int) ≤ 0 ∧ (0 : Int) < (exampleMatrix).shape.2) ∧
    ∃ m', set1 exampleMatrix 0 0 0 = .ok m' ∧ get1 m' 0 0 = .ok 0 ∧
      resolveIx exampleMatrix.shape.2 0 ∉
        m'.rows.getD (resolveIx exampleMatrix.shape.1 0) [] ∧
      (m'.rows.getD (resolveIx exampleMatrix.shape.1 0) []).length =
        (if resolveIx exampleMatrix.shape.2 0 ∈
            exampleMatrix.rows.getD (resolveIx exampleMatrix.shape.1 0) []
         then (exampleMatrix.rows.getD (resolveIx exampleMatrix.shape.1 0) []).length - 1
         else (exampleMatrix.rows.getD (resolveIx exampleMatrix.shape.1 0) []).length) ∧
      (m'.data.getD (resolveIx exampleMatrix.shape.1 0) []).length =
        (m'.rows.getD (resolveIx exampleMatrix.shape.1 0) []).length :=
  ⟨⟨by decide, by decide, by decide, by decide, by decide⟩,
    set_zero_then_get exampleMatrix 0 0 (by decide) (by decide) (by decide)
      (by decide) (by decide)⟩

/-! ## CSR conversion -/

theorem cumsumFrom_length : ∀ (l : List Nat) (acc : Nat),
    (cumsumFrom acc l).length = l.length := by
  intro l
  induction l with
  | nil => intro acc; rfl
  | cons a t ih =>
    intro acc
    simp only [cumsumFrom, List.length_cons, ih]

theorem cumsumFrom_getD_succ : ∀ (l : List Nat) (acc : Nat) (i : Nat), i < l.length →
    (acc :: cumsumFrom acc l).getD (i + 1) 0 =
      (acc :: cumsumFrom acc l).getD i 0 + l.getD i 0 := by
  intro l
  induction l with
  | nil =>
    intro acc i hi
    simp at hi
  | cons a t ih =>
    intro acc i hi
    cases i with
    | zero => simp [cumsumFrom]
    | succ k =>
      have hk : k < t.length := by simpa using hi
      have := ih (acc + a) k hk
      simp only [cumsumFrom, List.getD_cons_succ] at this ⊢
      exact this

theorem cumsumFrom_getD_last : ∀ (l : List Nat) (acc : Nat),
    (acc :: cumsumFrom acc l).getD l.length 0 = acc + l.sum := by
  intro l
  induction l with
  | nil => intro acc; simp
  | cons a t ih =>
    intro acc
    simp only [cumsumFrom, List.length_cons, List.getD_cons_succ, List.sum_cons]
    rw [ih (acc + a)]
    omega

theorem map_length_eq_of_zip :
    ∀ (l : List (List Nat)) (l' : List (List ℚ)), l.length = l'.length →
    (∀ p ∈ l.zip l', p.1.length = p.2.length) →
    l.map List.length = l'.map List.length := by
  intro l
  induction l with
  | nil =>
    intro l' he _
    have : l' = [] := List.eq_nil_of_length_eq_zero (by simpa using he.symm)
    rw [this]
    rfl
  | cons a t ih =>
    intro l' he hall
    cases l' with
    | nil => simp at he
    | cons b t' =>
      simp only [List.map_cons, List.cons.injEq]
      refine ⟨hall (a, b) (by simp), ?_⟩
      exact ih t' (by simpa using he)
        (fun p hp => hall p (List.mem_cons_of_mem _ hp))

theorem getD_map_length {l : List (List Nat)} {i : Nat} (h : i < l.length) :
    (l.map List.length).getD i 0 = (l.getD i []).length := by
  rw [List.getD_eq_getElem _ _ (by simpa using h), List.getD_eq_getElem _ _ h,
    List.getElem_map]

/-- C3: `tocsr` produces `rowStart` of length M+1 with `rowStart[0] = 0`,
`rowStart[i+1] = rowStart[i] + len(columns[i])` and `rowStart[M]` equal to
the total nonzero count; `colIndex` and `values` are the row-order
concatenations of the column and value lists.  On the spec's worked
example (empty 3×3, then set(0,0,1), set(0,2,3), set(1,1,2)) the nonzero
count is 3 and the arrays are rowStart=[0,2,3,3], colIndex=[0,2,1],
values=[1,3,2]. -/
theorem tocsr_spec (m : lil_matrix) (hm : Inv m) :
    (tocsr m).1.length = m.shape.1 + 1 ∧
    (tocsr m).1.getD 0 0 = 0 ∧
    (∀ i, i < m.shape.1 →
      (tocsr m).1.getD (i + 1) 0 =
        (tocsr m).1.getD i 0 + (m.rows.getD i []).length) ∧
    (tocsr m).1.getD m.shape.1 0 = getnnz m ∧
    (tocsr m).2.1 = m.rows.flatten ∧
    (tocsr m).2.2 = m.data.flatten ∧
    (setMany (emptyLil 3 3) [(0, 0, 1), (0, 2, 3), (1, 1, 2)] = .ok exampleMatrix ∧
      getnnz exampleMatrix = 3 ∧
      tocsr exampleMatrix = ([0, 2, 3, 3], [0, 2, 1], [1, 3, 2])) := by
  have hrl : m.rows.length = m.shape.1 := hm.1
  have hdl : m.data.length = m.shape.1 := hm.2.1
  have hml : (m.rows.map List.length).length = m.shape.1 := by
    rw [List.length_map, hrl]
  refine ⟨?_, rfl, ?_, ?_, rfl, rfl, rfl, rfl, rfl⟩
  · show (0 :: cumsum (m.rows.map List.length)).length = m.shape.1 + 1
    rw [List.length_cons]
    unfold cumsum
    rw [cumsumFrom_length, hml]
  · intro i hi
    show (0 :: cumsum (m.rows.map List.length)).getD (i + 1) 0 =
      (0 :: cumsum (m.rows.map List.length)).getD i 0 + (m.rows.getD i []).length
    unfold cumsum
    rw [cumsumFrom_getD_succ (m.rows.map List.length) 0 i (by omega),
      getD_map_length (by omega)]
  · show (0 :: cumsum (m.rows.map List.length)).getD m.shape.1 0 = getnnz m
    unfold cumsum
    have := cumsumFrom_getD_last (m.rows.map List.length) 0
    rw [hml] at this
    rw [this]
    unfold getnnz
    rw [map_length_eq_of_zip m.rows m.data (by omega) (fun p hp => (hm.2.2 p hp).2.1)]
    omega

theorem tocsr_spec_witness :
    Inv exampleMatrix ∧
    ((tocsr exampleMatrix).1.length = exampleMatrix.shape.1 + 1 ∧
    (tocsr exampleMatrix).1.getD 0 0 = 0 ∧
    (∀ i, i < exampleMatrix.shape.1 →
      (tocsr exampleMatrix).1.getD (i + 1) 0 =
        (tocsr exampleMatrix).1.getD i 0 + (exampleMatrix.rows.getD i []).length) ∧
    (tocsr exampleMatrix).1.getD exampleMatrix.shape.1 0 = getnnz exampleMatrix ∧
    (tocsr exampleMatrix).2.1 = exampleMatrix.rows.flatten ∧
    (tocsr exampleMatrix).2.2 = exampleMatrix.data.flatten ∧
    (setMany (emptyLil 3 3) [(0, 0, 1), (0, 2, 3), (1, 1, 2)] = .ok exampleMatrix ∧
      getnnz exampleMatrix = 3 ∧
      tocsr exampleMatrix = ([0, 2, 3, 3], [0, 2, 1], [1, 3, 2]))) :=
  ⟨by decide, tocsr_spec exampleMatrix (by decide)⟩

/-! ## Slice expansion -/

/-- C4 (the code evaluated at the failing input): for extent 5 the slice
`start=-2` does resolve its start to 3 (the expansion is [3, 4]), but the
full negative-step slice `[::-1]` expands to [5, 4, 3, 2, 1, 0] — the
default start for a negative step is the extent itself, not extent-1 —
so the produced sequence contains the out-of-range index 5, and using it
as a row index raises an IndexError instead of reading the reversed
matrix. -/
theorem slicetoseq_negative_step_eval :
    slicetoseq ⟨none, none, some (-1)⟩ 5 = [5, 4, 3, 2, 1, 0] ∧
    (5 : Int) ∈ slicetoseq ⟨none, none, some (-1)⟩ 5 ∧
    slicetoseq ⟨some (-2), none, none⟩ 5 = [3, 4] ∧
    get1 (emptyLil 5 5) 5 0 = .error "row index out of bounds" :=
  ⟨by decide, by decide, by decide, rfl⟩

/-! ## Scalar multiplication by zero -/

/-- C10: multiplying any matrix by the scalar zero returns a new matrix of
the same shape in which every row's column list and value list are empty,
so the nonzero count is 0 and the never-store-the-additive-identity
invariant holds. -/
theorem mul_scalar_zero_empty (m : lil_matrix) :
    (mul_scalar m 0).shape = m.shape ∧
    (∀ p ∈ (mul_scalar m 0).rows.zip (mul_scalar m 0).data, p.1 = [] ∧ p.2 = []) ∧
    getnnz (mul_scalar m 0) = 0 ∧ Inv (mul_scalar m 0) := by
  have hz : mul_scalar m 0 = emptyLil m.shape.1 m.shape.2 := by
    unfold mul_scalar
    rw [if_pos rfl]
  rw [hz]
  refine ⟨rfl, ?_, ?_, emptyLil_inv _ _⟩
  · intro p hp
    unfold emptyLil at hp
    obtain ⟨h1, h2⟩ := List.of_mem_zip hp
    exact ⟨List.eq_of_mem_replicate h1, List.eq_of_mem_replicate h2⟩
  · unfold getnnz emptyLil
    simp

/-! ## The scalar-versus-matrix discrimination of `__getitem__` -/

theorem map_mat_ne_ok_scalar {e : Except String (List (List ℚ))} {x : ℚ} :
    ¬ e.map ReadResult.mat = .ok (.scalar x) := by
  cases e <;> simp [Except.map]

theorem map_scalar_ok_iff {e : Except String ℚ} {x : ℚ} :
    e.map ReadResult.scalar = .ok (.scalar x) ↔ e = .ok x := by
  cases e <;> simp [Except.map]

theorem getitem_slice_not_scalar {m : lil_matrix} {ia ja : AxisIx} {x : ℚ}
    (h : (isSlice ia || isSlice ja) = true) :
    ¬ getitem m ia ja = .ok (.scalar x) := by
  unfold getitem
  cases hn : normalizeIx m ia ja with
  | error e => simp
  | ok o =>
    cases o with
    | none => simp
    | some IJ =>
      obtain ⟨I, J⟩ := IJ
      simp only
      rw [if_neg (fun hc => by rw [h] at hc; exact absurd hc.1 (by simp))]
      exact map_mat_ne_ok_scalar

theorem getitem_nonslice (m : lil_matrix) (ia ja : AxisIx)
    (h1 : isSlice ia = false) (h2 : isSlice ja = false) :
    getitem m ia ja =
      match broadcast2 (atleast2d ia) (atleast2d ja) with
      | .error e => .error e
      | .ok (I, J) =>
        if gridShape I = gridShape J ∧ gridShape I = (1, 1) then
          (get1 m ((I.headD []).headD 0) ((J.headD []).headD 0)).map .scalar
        else (gridGet m I J).map .mat := by
  unfold getitem normalizeIx
  rw [h1, h2]
  simp only [Bool.or_self, Bool.false_eq_true, if_false]
  cases hb : broadcast2 (atleast2d ia) (atleast2d ja) with
  | error e => simp [Except.map]
  | ok IJ =>
    obtain ⟨I, J⟩ := IJ
    simp [Except.map]

theorem eq_singleton_of_length_one {l : List Int} (h : l.length = 1) :
    l = [l.headD 0] := by
  cases l with
  | nil => simp at h
  | cons a t =>
    cases t with
    | nil => rfl
    | cons b t2 => simp at h

theorem getitem_nonslice_scalar_iff (m : lil_matrix) (ia ja : AxisIx) (x : ℚ)
    (h1 : isSlice ia = false) (h2 : isSlice ja = false) :
    getitem m ia ja = .ok (.scalar x) ↔
      gridShape (atleast2d ia) = (1, 1) ∧ gridShape (atleast2d ja) = (1, 1) ∧
      get1 m (axisVal ia) (axisVal ja) = .ok x := by
  rw [getitem_nonslice m ia ja h1 h2]
  cases ia with
  | sl s => simp [isSlice] at h1
  | scalar v =>
    cases ja with
    | sl s => simp [isSlice] at h2
    | scalar w =>
      simp [broadcast2, atleast2d, gridShape, axisVal, map_scalar_ok_iff, Prod.ext_iff]
    | arr l =>
      rcases l with _ | ⟨w, _ | ⟨w2, t⟩⟩
      · simp [broadcast2, atleast2d, gridShape, axisVal, map_mat_ne_ok_scalar, Prod.ext_iff]
      · simp [broadcast2, atleast2d, gridShape, axisVal, map_scalar_ok_iff, Prod.ext_iff]
      · simp [broadcast2, atleast2d, gridShape, axisVal, map_mat_ne_ok_scalar, Prod.ext_iff]
  | arr l =>
    cases ja with
    | sl s => simp [isSlice] at h2
    | scalar w =>
      rcases l with _ | ⟨v, _ | ⟨v2, t⟩⟩
      · simp [broadcast2, atleast2d, gridShape, axisVal, map_mat_ne_ok_scalar, Prod.ext_iff]
      · simp [broadcast2, atleast2d, gridShape, axisVal, map_scalar_ok_iff, Prod.ext_iff]
      · simp [broadcast2, atleast2d, gridShape, axisVal, map_mat_ne_ok_scalar, Prod.ext_iff]
    | arr l' =>
      rcases l with _ | ⟨v, _ | ⟨v2, t⟩⟩ <;> rcases l' with _ | ⟨w, _ | ⟨w2, t'⟩⟩
      · simp [broadcast2, atleast2d, gridShape, axisVal, map_mat_ne_ok_scalar, Prod.ext_iff]
      · simp [broadcast2, atleast2d, gridShape, axisVal, map_mat_ne_ok_scalar, Prod.ext_iff]
      · simp [broadcast2, atleast2d, gridShape, axisVal, map_mat_ne_ok_scalar, Prod.ext_iff]
      · simp [broadcast2, atleast2d, gridShape, axisVal, map_mat_ne_ok_scalar, Prod.ext_iff]
      · simp [broadcast2, atleast2d, gridShape, axisVal, map_scalar_ok_iff, Prod.ext_iff]
      · simp [broadcast2, atleast2d, gridShape, axisVal, map_mat_ne_ok_scalar, Prod.ext_iff]
      · simp [broadcast2, atleast2d, gridShape, axisVal, map_mat_ne_ok_scalar, Prod.ext_iff]
      · simp [broadcast2, atleast2d, gridShape, axisVal, map_mat_ne_ok_scalar, Prod.ext_iff]
      · by_cases he : t.length = t'.length
        · simp [broadcast2, atleast2d, gridShape, axisVal, map_mat_ne_ok_scalar,
            Prod.ext_iff, he]
        · have he' : ¬ t'.length = t.length := fun hh => he hh.symm
          simp [broadcast2, atleast2d, gridShape, axisVal, map_mat_ne_ok_scalar,
            Prod.ext_iff, he, he']

/-- C5 amended: a read returns a bare scalar exactly when neither axis is
a slice and both normalized index arrays are 1×1 — that is, each axis is
a scalar or a single-element sequence — and then the value is the `_get1`
lookup at that pair.  In particular singleton fancy indexes like
`m[[0],[0]]` return a scalar, while any slice axis (even a 1×1 one) never
does. -/
theorem getitem_scalar_iff (m : lil_matrix) (ia ja : AxisIx) (x : ℚ) :
    getitem m ia ja = .ok (.scalar x) ↔
      isSlice ia = false ∧ isSlice ja = false ∧
      gridShape (atleast2d ia) = (1, 1) ∧ gridShape (atleast2d ja) = (1, 1) ∧
      get1 m (axisVal ia) (axisVal ja) = .ok x := by
  cases hia : isSlice ia with
  | true =>
    constructor
    · intro h
      exact absurd h (getitem_slice_not_scalar (by rw [hia]; rfl))
    · rintro ⟨hf, _⟩
      exact absurd hf (by simp)
  | false =>
    cases hja : isSlice ja with
    | true =>
      constructor
      · intro h
        exact absurd h (getitem_slice_not_scalar (by rw [hja]; simp))
      · rintro ⟨_, hf, _⟩
        exact absurd hf (by simp)
    | false =>
      rw [getitem_nonslice_scalar_iff m ia ja x hia hja]
      simp

/-- C5 counterexample: on the 2×2 matrix holding 7 at (0,0), the fancy
read with the singleton sequences `[0]`, `[0]` — a non-scalar sequence on
both axes, normalized to 1×1 arrays — returns the bare scalar 7, not a
1×1 matrix. -/
theorem getitem_singleton_seq_scalar :
    getitem sevenMatrix (.arr [0]) (.arr [0]) = .ok (.scalar 7) ∧
    (getitem sevenMatrix (.arr [0]) (.arr [0])).map isMat = .ok false :=
  ⟨rfl, rfl⟩

/-! ## The sparse 1×1 broadcast write -/

/-- C6 (the code evaluated at the failing input): writing a 1×1 *sparse*
right-hand side holding 5 into the two-coordinate fancy index
`([0,1], [2,3])` of a 4×4 zero matrix raises an IndexError, because the
loop passes `j[jj]` — the row of the normalized column grid selected by
the column value — to `_insertat2` instead of the column `jj` itself.
The dense path right next to it, fed the equivalent 1×1 dense
right-hand side, correctly sets exactly (0,2) and (1,3) to 5. -/
theorem setitem_sparse_one_one_bug :
    setitem (emptyLil 4 4) (.arr [0, 1]) (.arr [2, 3]) (.sparse oneByOne5) =
      .error "index out of bounds" ∧
    setitem (emptyLil 4 4) (.arr [0, 1]) (.arr [2, 3]) (.dense [[5]]) =
      .ok ⟨(4, 4), [[2], [3], [], []], [[5], [5], [], []]⟩ :=
  ⟨rfl, rfl⟩

/-! ## Aliasing of rows between matrices (heap model) -/

theorem getD_append_left {α : Type} {l l' : List α} {k : Nat} {d : α}
    (h : k < l.length) : (l ++ l').getD k d = l.getD k d := by
  rw [List.getD_eq_getElem _ _ (by rw [List.length_append]; omega),
    List.getD_eq_getElem _ _ h]
  exact List.getElem_append_left _

theorem getD_append_right_offset {α : Type} {l l' : List α} {k : Nat} {d : α}
    (h : k < l'.length) : (l ++ l').getD (k + l.length) d = l'.getD k d := by
  rw [List.getD_eq_getElem _ _ (by rw [List.length_append]; omega),
    List.getD_eq_getElem _ _ h]
  rw [List.getElem_append_right (by omega)]
  congr 1
  omega

theorem getD_range_map_add {n c k : Nat} (h : k < n) :
    ((List.range n).map (· + c)).getD k 0 = k + c := by
  rw [List.getD_eq_getElem _ _ (by simpa using h), List.getElem_map,
    List.getElem_range]

theorem getD_map_heapGet {h : RowHeap} {ids : List Nat} {k : Nat}
    (hk : k < ids.length) :
    (ids.map (heapGet h)).getD k ([], []) = heapGet h (ids.getD k 0) := by
  rw [List.getD_eq_getElem _ _ (by simpa using hk), List.getElem_map,
    List.getD_eq_getElem _ _ hk]

theorem copyRef_read (h : RowHeap) (src : LilRef) {k : Nat}
    (hk : k < src.rowIds.length) :
    readRowRef (copyRef h src).1 (copyRef h src).2 k = readRowRef h src k := by
  show heapGet ⟨h.cells ++ src.rowIds.map (heapGet h)⟩
    (((List.range (src.rowIds.map (heapGet h)).length).map
      (· + h.cells.length)).getD k 0) = heapGet h (src.rowIds.getD k 0)
  rw [getD_range_map_add (by simpa using hk)]
  unfold heapGet
  rw [getD_append_right_offset (by simpa using hk)]
  exact getD_map_heapGet hk

theorem setRef_ok_cells {h : RowHeap} {m : LilRef} {i j : Int} {x : ℚ}
    {h' : RowHeap} (hset : setRef h m i j x = .ok h') :
    ∃ ir rd', ir < m.rowIds.length ∧
      h' = ⟨h.cells.set (m.rowIds.getD ir 0) rd'⟩ := by
  unfold setRef at hset
  cases hnp : npIndex m.rowIds.length i with
  | error e =>
    rw [hnp] at hset
    simp [Bind.bind, Except.bind] at hset
  | ok ir =>
    rw [hnp] at hset
    simp only [Bind.bind, Except.bind] at hset
    obtain ⟨_, hirlt⟩ := npIndex_ok hnp
    cases hi2 : insertat2 m.shape.2 (heapGet h (m.rowIds.getD ir 0)).1
        (heapGet h (m.rowIds.getD ir 0)).2 j x with
    | error e =>
      rw [hi2] at hset
      simp at hset
    | ok rd' =>
      rw [hi2] at hset
      simp only at hset
      injection hset with hset'
      exact ⟨ir, rd', hirlt, hset'.symm⟩

theorem setRef_on_fresh_ids {h : RowHeap} {src : LilRef} {sh : Nat × Nat}
    {i j : Int} {x : ℚ} {h' : RowHeap}
    (hval : ∀ r ∈ src.rowIds, r < h.cells.length)
    (hset : setRef (copyRef h src).1 ⟨sh, (copyRef h src).2.rowIds⟩ i j x = .ok h')
    {k : Nat} (hk : k < src.rowIds.length) :
    readRowRef h' src k = readRowRef h src k := by
  obtain ⟨ir, rd', hirlt, hcells⟩ := setRef_ok_cells hset
  have hlenids : (copyRef h src).2.rowIds.length = src.rowIds.length := by
    show ((List.range (src.rowIds.map (heapGet h)).length).map
      (· + h.cells.length)).length = src.rowIds.length
    simp
  have hirlt' : ir < src.rowIds.length := by
    have h2 : ir < (copyRef h src).2.rowIds.length := hirlt
    rw [hlenids] at h2
    exact h2
  have hrid : ((List.range (src.rowIds.map (heapGet h)).length).map
      (· + h.cells.length)).getD ir 0 = ir + h.cells.length :=
    getD_range_map_add (by simpa using hirlt')
  have hsrcid : src.rowIds.getD k 0 < h.cells.length := by
    have : src.rowIds.getD k 0 ∈ src.rowIds := by
      rw [List.getD_eq_getElem _ _ hk]
      exact List.getElem_mem hk
    exact hval _ this
  rw [hcells]
  unfold readRowRef heapGet
  show ((h.cells ++ src.rowIds.map (heapGet h)).set _ rd').getD (src.rowIds.getD k 0)
    ([], []) = h.cells.getD (src.rowIds.getD k 0) ([], [])
  rw [show (((copyRef h src).2.rowIds).getD ir 0) = ir + h.cells.length from hrid]
  rw [getD_set_ne (by omega)]
  exact getD_append_left hsrcid

/-- C8 counterexample: constructing a matrix from a LIL source with the
default `copy=False` and no dtype override installs the source's own row
objects (`tolil` returns the source itself).  Concretely: the source is a
1×1 empty matrix whose only row cell reads `([], [])`; after one
`set(0, 0, 5)` on the constructed matrix, the *source's* row reads
`([0], [5])` — the source was mutated through the new matrix. -/
theorem initFromLil_noncopy_aliases :
    readRowRef (initFromLil ⟨[([], [])]⟩ ⟨(1, 1), [0]⟩ false).1 ⟨(1, 1), [0]⟩ 0 =
      ([], []) ∧
    setRef (initFromLil ⟨[([], [])]⟩ ⟨(1, 1), [0]⟩ false).1
      (initFromLil ⟨[([], [])]⟩ ⟨(1, 1), [0]⟩ false).2 0 0 5 = .ok ⟨[([0], [5])]⟩ ∧
    readRowRef ⟨[([0], [5])]⟩ ⟨(1, 1), [0]⟩ 0 = ([0], [5]) :=
  ⟨rfl, rfl, rfl⟩

/-- C8 amended: rows are cloned when a copy is requested (`copy=True`
deep-copies, and the full-matrix write shortcut installs converted —
hence cloned — rows); in those cases the new matrix reads the same
contents as the source, and mutating the new/target matrix through `set`
leaves every row observed through the source unchanged.  With
`copy=False` and a LIL source, however, the constructor aliases the
source's rows (see the counterexample). -/
theorem initFromLil_copy_independent (h : RowHeap) (src : LilRef) (i j : Int)
    (x : ℚ) (hval : ∀ r ∈ src.rowIds, r < h.cells.length) :
    (∀ k, k < src.rowIds.length →
      readRowRef (initFromLil h src true).1 (initFromLil h src true).2 k =
        readRowRef h src k) ∧
    (∀ h' : RowHeap,
      setRef (initFromLil h src true).1 (initFromLil h src true).2 i j x = .ok h' →
      ∀ k, k < src.rowIds.length → readRowRef h' src k = readRowRef h src k) ∧
    (∀ m : LilRef, ∀ h' : RowHeap,
      setRef (setitemFullRef h m src).1 (setitemFullRef h m src).2 i j x = .ok h' →
      ∀ k, k < src.rowIds.length → readRowRef h' src k = readRowRef h src k) := by
  refine ⟨?_, ?_, ?_⟩
  · intro k hk
    exact copyRef_read h src hk
  · intro h' hset k hk
    exact setRef_on_fresh_ids hval hset hk
  · intro m h' hset k hk
    exact setRef_on_fresh_ids hval hset hk

theorem initFromLil_copy_independent_witness :
    (∀ r ∈ ([0] : List Nat), r < (⟨[([0], [5])]⟩ : RowHeap).cells.length) ∧
    ((∀ k, k < ([0] : List Nat).length →
      readRowRef (initFromLil ⟨[([0], [5])]⟩ ⟨(1, 1), [0]⟩ true).1
          (initFromLil ⟨[([0], [5])]⟩ ⟨(1, 1), [0]⟩ true).2 k =
        readRowRef ⟨[([0], [5])]⟩ ⟨(1, 1), [0]⟩ k) ∧
    (∀ h' : RowHeap,
      setRef (initFromLil ⟨[([0], [5])]⟩ ⟨(1, 1), [0]⟩ true).1
        (initFromLil ⟨[([0], [5])]⟩ ⟨(1, 1), [0]⟩ true).2 0 0 7 = .ok h' →
      ∀ k, k < ([0] : List Nat).length →
        readRowRef h' ⟨(1, 1), [0]⟩ k = readRowRef ⟨[([0], [5])]⟩ ⟨(1, 1), [0]⟩ k) ∧
    (∀ m : LilRef, ∀ h' : RowHeap,
      setRef (setitemFullRef ⟨[([0], [5])]⟩ m ⟨(1, 1), [0]⟩).1
        (setitemFullRef ⟨[([0], [5])]⟩ m ⟨(1, 1), [0]⟩).2 0 0 7 = .ok h' →
      ∀ k, k < ([0] : List Nat).length →
        readRowRef h' ⟨(1, 1), [0]⟩ k = readRowRef ⟨[([0], [5])]⟩ ⟨(1, 1), [0]⟩ k)) :=
  ⟨by decide, initFromLil_copy_independent ⟨[([0], [5])]⟩ ⟨(1, 1), [0]⟩ 0 0 7
    (by decide)⟩

/-! ## Reshape -/

theorem foldlM_congr {α β : Type} {f g : β → α → Except String β}
    (h : ∀ b a, f b a = g b a) :
    ∀ (l : List α) (b : β), l.foldlM f b = l.foldlM g b := by
  intro l
  induction l with
  | nil => intro b; rfl
  | cons a t ih =>
    intro b
    rw [List.foldlM_cons, List.foldlM_cons, h b a]
    cases g b a with
    | error e => simp [Bind.bind, Except.bind]
    | ok b' => simp only [Bind.bind, Except.bind]; exact ih b'

theorem foldlM_map {α γ β : Type} (g : α → γ) (f : β → γ → Except String β) :
    ∀ (l : List α) (b : β),
    (l.map g).foldlM f b = l.foldlM (fun b a => f b (g a)) b := by
  intro l
  induction l with
  | nil => intro b; rfl
  | cons a t ih =>
    intro b
    rw [List.map_cons, List.foldlM_cons, List.foldlM_cons]
    cases f b (g a) with
    | error e => simp [Bind.bind, Except.bind]
    | ok b' => simp only [Bind.bind, Except.bind]; exact ih b'

theorem foldlM_flatten {α β : Type} (f : β → α → Except String β) :
    ∀ (ll : List (List α)) (b : β),
    ll.flatten.foldlM f b = ll.foldlM (fun b l => l.foldlM f b) b := by
  intro ll
  induction ll with
  | nil => intro b; rfl
  | cons l t ih =>
    intro b
    rw [List.flatten_cons, List.foldlM_append, List.foldlM_cons]
    cases hb : l.foldlM f b with
    | error e => simp [Bind.bind, Except.bind]
    | ok b' => simp only [Bind.bind, Except.bind]; exact ih b'

/-- The nested reshape loop is the flat fold over all stored coordinates. -/
theorem reshape_eq_fold (m : lil_matrix) (s : Nat × Nat) :
    reshape m s = (entryPairs m).foldlM (reshapeStep m s) (emptyLil s.1 s.2) := by
  unfold reshape entryPairs reshapeStep
  rw [foldlM_flatten, foldlM_map]
  refine foldlM_congr (fun b p => ?_) m.rows.enum (emptyLil s.1 s.2)
  rw [foldlM_map]

theorem getD_replicate_default {α : Type} {n a : Nat} {d : α} :
    (List.replicate n d).getD a d = d := by
  by_cases h : a < n
  · rw [List.getD_eq_getElem _ _ (by simpa using h), List.getElem_replicate]
  · rw [List.getD_eq_default _ _ (by simpa using h)]

theorem get1_emptyLil {M N a b : Nat} (ha : a < M) (hb : b < N) :
    get1 (emptyLil M N) a b = .ok 0 := by
  rw [get1_nat_eq (m := emptyLil M N) ha hb]
  show Except.ok (rowLookup ((List.replicate M []).getD a [])
    ((List.replicate M []).getD a []) b) = Except.ok 0
  rw [getD_replicate_default, getD_replicate_default]
  rfl

theorem mem_entryPairs {m : lil_matrix} {p : Nat × Nat} :
    p ∈ entryPairs m ↔ p.1 < m.rows.length ∧ p.2 ∈ m.rows.getD p.1 [] := by
  unfold entryPairs
  rw [List.mem_flatten]
  constructor
  · rintro ⟨l, hl, hpl⟩
    rw [List.mem_map] at hl
    obtain ⟨q, hq, rfl⟩ := hl
    rw [List.mem_map] at hpl
    obtain ⟨j, hj, rfl⟩ := hpl
    rw [List.mem_enum_iff_getElem?] at hq
    rw [List.getElem?_eq_some] at hq
    obtain ⟨hlt, hget⟩ := hq
    refine ⟨hlt, ?_⟩
    rw [List.getD_eq_getElem _ _ hlt, hget]
    exact hj
  · rintro ⟨h1, h2⟩
    refine ⟨(m.rows.getD p.1 []).map (fun j => (p.1, j)), ?_, ?_⟩
    · rw [List.mem_map]
      refine ⟨(p.1, m.rows.getD p.1 []), ?_, rfl⟩
      rw [List.mem_enum_iff_getElem?, List.getElem?_eq_some]
      exact ⟨h1, (List.getD_eq_getElem _ _ h1).symm⟩
    · rw [List.mem_map]
      exact ⟨p.2, h2, rfl⟩

theorem entryPairs_facts {m : lil_matrix} (hm : Inv m) :
    ∀ p ∈ entryPairs m, p.1 < m.shape.1 ∧ p.2 < m.shape.2 ∧
      get1 m p.1 p.2 = .ok (entryVal m p) ∧ entryVal m p ≠ 0 := by
  intro p hp
  obtain ⟨h1, h2⟩ := mem_entryPairs.mp hp
  have hp1 : p.1 < m.shape.1 := by rw [← hm.1]; exact h1
  obtain ⟨hsrt, hlen, hcb, hnz⟩ := hm.rowFacts p.1
  have hp2 : p.2 < m.shape.2 := hcb p.2 h2
  refine ⟨hp1, hp2, ?_, ?_⟩
  · rw [get1_nat_eq hp1 hp2]
    rfl
  · exact hnz _ (rowLookup_mem_of_mem hsrt hlen h2)

theorem flatKey_lt {M N : Nat} {p : Nat × Nat} (h1 : p.1 < M) (h2 : p.2 < N) :
    p.1 * N + p.2 < M * N := by
  calc p.1 * N + p.2 < p.1 * N + N := by omega
  _ = (p.1 + 1) * N := by ring
  _ ≤ M * N := Nat.mul_le_mul_right N (by omega)

theorem flat_coord_iff {s2 : Nat} (hpos : 0 < s2) {a b k : Nat} (hb : b < s2) :
    (a = k / s2 ∧ b = k % s2) ↔ a * s2 + b = k := by
  constructor
  · rintro ⟨rfl, rfl⟩
    rw [Nat.mul_comm]
    exact Nat.div_add_mod k s2
  · rintro rfl
    constructor
    · rw [Nat.add_comm, Nat.add_mul_div_right _ _ hpos, Nat.div_eq_of_lt hb,
        Nat.zero_add]
    · rw [Nat.add_comm, Nat.add_mul_mod_self_right, Nat.mod_eq_of_lt hb]

theorem flatKey_inj {N : Nat} {p q : Nat × Nat} (hp : p.2 < N) (hq : q.2 < N)
    (h : p.1 * N + p.2 = q.1 * N + q.2) : p = q := by
  have hpos : 0 < N := by omega
  obtain ⟨h1, h2⟩ := (flat_coord_iff hpos hp).mpr h
  obtain ⟨h3, h4⟩ := (flat_coord_iff hpos hq).mpr
    (rfl : q.1 * N + q.2 = q.1 * N + q.2)
  exact Prod.ext (h1.trans h3.symm) (h2.trans h4.symm)

theorem reshapeMap_nil {m : lil_matrix} {φ : Nat → ℚ} : reshapeMap m [] φ = φ := rfl

theorem reshapeMap_cons {m : lil_matrix} {t : Nat × Nat} {ts : List (Nat × Nat)}
    {φ : Nat → ℚ} :
    reshapeMap m (t :: ts) φ = reshapeMap m ts
      (fun k => if k = t.1 * m.shape.2 + t.2 then entryVal m t else φ k) := rfl

theorem reshapeMap_not_mem {m : lil_matrix} {k : Nat} :
    ∀ (ts : List (Nat × Nat)) (φ : Nat → ℚ),
    (∀ p ∈ ts, p.1 * m.shape.2 + p.2 ≠ k) → reshapeMap m ts φ k = φ k := by
  intro ts
  induction ts with
  | nil => intro φ _; rfl
  | cons t ts ih =>
    intro φ h
    rw [reshapeMap_cons, ih _ (fun p hp => h p (List.mem_cons_of_mem t hp))]
    rw [if_neg (fun hc => h t (List.mem_cons_self t ts) hc.symm)]

theorem reshapeMap_mem {m : lil_matrix} {k : Nat} :
    ∀ (ts : List (Nat × Nat)) (φ : Nat → ℚ) (p : Nat × Nat), p ∈ ts →
    p.1 * m.shape.2 + p.2 = k →
    (∀ q ∈ ts, q.1 * m.shape.2 + q.2 = k → q = p) →
    reshapeMap m ts φ k = entryVal m p := by
  intro ts
  induction ts with
  | nil =>
    intro φ p hp
    simp at hp
  | cons t ts ih =>
    intro φ p hp hk huniq
    rw [reshapeMap_cons]
    by_cases hex : ∃ q ∈ ts, q.1 * m.shape.2 + q.2 = k
    · obtain ⟨q, hq, hqk⟩ := hex
      have hqp : q = p := huniq q (List.mem_cons_of_mem t hq) hqk
      subst hqp
      exact ih _ q hq hk (fun r hr hrk => huniq r (List.mem_cons_of_mem t hr) hrk)
    · push_neg at hex
      have hpt : p = t := by
        rcases List.mem_cons.mp hp with h | h
        · exact h
        · exact absurd hk (hex p h)
      subst hpt
      rw [reshapeMap_not_mem ts _ hex, if_pos hk.symm]

/-- Simulation of the reshape write loop: starting from an accumulator
whose logical contents are described by the flat map `φ`, the fold over
stored coordinates succeeds and leaves the accumulator described by the
updated flat map. -/
theorem fold_set_sim (m : lil_matrix) (s : Nat × Nat) :
    ∀ (ts : List (Nat × Nat)) (new : lil_matrix) (φ : Nat → ℚ),
    Inv new → new.shape = s →
    (∀ a b : Nat, a < s.1 → b < s.2 → get1 new a b = .ok (φ (a * s.2 + b))) →
    (∀ p ∈ ts, p.1 * m.shape.2 + p.2 < s.1 * s.2 ∧
      get1 m p.1 p.2 = .ok (entryVal m p) ∧ entryVal m p ≠ 0) →
    ∃ new', (ts.foldlM (reshapeStep m s) new) = .ok new' ∧
      Inv new' ∧ new'.shape = s ∧
      (∀ a b : Nat, a < s.1 → b < s.2 →
        get1 new' a b = .ok (reshapeMap m ts φ (a * s.2 + b))) := by
  intro ts
  induction ts with
  | nil =>
    intro new φ hinv hshape hφ _
    exact ⟨new, rfl, hinv, hshape, fun a b ha hb => hφ a b ha hb⟩
  | cons t ts ih =>
    intro new φ hinv hshape hφ hts
    obtain ⟨hkfit, hg, hnz⟩ := hts t (List.mem_cons_self t ts)
    have hs2pos : 0 < s.2 := by
      rcases Nat.eq_zero_or_pos s.2 with h0 | h
      · rw [h0, Nat.mul_zero] at hkfit
        omega
      · exact h
    have hrc1 : (t.1 * m.shape.2 + t.2) / s.2 < s.1 :=
      (Nat.div_lt_iff_lt_mul hs2pos).mpr hkfit
    have hrc2 : (t.1 * m.shape.2 + t.2) % s.2 < s.2 :=
      Nat.mod_lt _ hs2pos
    have hunr : unravel_index (t.1 * m.shape.2 + t.2) s =
        .ok ((t.1 * m.shape.2 + t.2) / s.2, (t.1 * m.shape.2 + t.2) % s.2) := by
      unfold unravel_index
      rw [if_pos hkfit]
    have hns1 : new.shape.1 = s.1 := by rw [hshape]
    have hns2 : new.shape.2 = s.2 := by rw [hshape]
    obtain ⟨new1, hset⟩ := set1_isOk (m := new)
      (i := (((t.1 * m.shape.2 + t.2) / s.2 : Nat) : Int))
      (j := (((t.1 * m.shape.2 + t.2) % s.2 : Nat) : Int)) (entryVal m t) hinv.1
      (le_trans (neg_nonpos.mpr (Int.natCast_nonneg _)) (Int.natCast_nonneg _))
      (by rw [hns1]; exact_mod_cast hrc1)
      (le_trans (neg_nonpos.mpr (Int.natCast_nonneg _)) (Int.natCast_nonneg _))
      (by rw [hns2]; exact_mod_cast hrc2)
    obtain ⟨hinv1, hshape1, _, _, hget1⟩ := set1_ok_spec hinv hset
    have hφ1 : ∀ a b : Nat, a < s.1 → b < s.2 →
        get1 new1 a b = .ok (if a * s.2 + b = t.1 * m.shape.2 + t.2
          then entryVal m t else φ (a * s.2 + b)) := by
      intro a b ha hb
      have hup := hget1 a b (by omega) (by omega)
      rw [resolveIx_coe, resolveIx_coe] at hup
      by_cases hc : a = (t.1 * m.shape.2 + t.2) / s.2 ∧
          b = (t.1 * m.shape.2 + t.2) % s.2
      · rw [if_pos hc, if_neg hnz] at hup
        have hk : a * s.2 + b = t.1 * m.shape.2 + t.2 :=
          (flat_coord_iff hs2pos hb).mp hc
        rw [hup, if_pos hk]
      · rw [if_neg hc] at hup
        have hk : ¬ a * s.2 + b = t.1 * m.shape.2 + t.2 := by
          intro he
          exact hc ((flat_coord_iff hs2pos hb).mpr he)
        rw [hup, hφ a b ha hb, if_neg hk]
    obtain ⟨new', hfold, hinv', hshape', hget'⟩ := ih new1
      (fun kk => if kk = t.1 * m.shape.2 + t.2 then entryVal m t else φ kk) hinv1
      (by rw [hshape1, hshape]) (fun a b ha hb => hφ1 a b ha hb)
      (fun q hq => hts q (List.mem_cons_of_mem t hq))
    refine ⟨new', ?_, hinv', hshape', ?_⟩
    · rw [List.foldlM_cons]
      have hstep : reshapeStep m s new t = .ok new1 := by
        unfold reshapeStep
        rw [hunr]
        simp only
        rw [hg]
        exact hset
      rw [hstep]
      simp only [Bind.bind, Except.bind]
      exact hfold
    · intro a b ha hb
      rw [reshapeMap_cons]
      exact hget' a b ha hb

/-- C7 counterexample: `reshape` never compares the total element counts;
reshaping the empty 3×3 matrix to shape (2, 2) succeeds and returns the
empty 2×2 matrix, although 3·3 ≠ 2·2, where the claim demands a
ShapeMismatch failure. -/
theorem reshape_count_mismatch_no_error :
    reshape (emptyLil 3 3) (2, 2) = .ok (emptyLil 2 2) ∧ 3 * 3 ≠ 2 * 2 :=
  ⟨rfl, by decide⟩

/-- When some stored coordinate's flat index does not fit the new shape,
the reshape loop stops at the first such entry with the ValueError raised
by `np.unravel_index`. -/
theorem fold_set_error (m : lil_matrix) (s : Nat × Nat) :
    ∀ (ts : List (Nat × Nat)) (new : lil_matrix),
    Inv new → new.shape = s →
    (∀ p ∈ ts, get1 m p.1 p.2 = .ok (entryVal m p) ∧ entryVal m p ≠ 0) →
    (∃ p ∈ ts, s.1 * s.2 ≤ p.1 * m.shape.2 + p.2) →
    ts.foldlM (reshapeStep m s) new = .error "ValueError: index is out of bounds" := by
  intro ts
  induction ts with
  | nil =>
    intro new _ _ _ hex
    obtain ⟨p, hp, _⟩ := hex
    simp at hp
  | cons t ts ih =>
    intro new hinv hshape hts hex
    rw [List.foldlM_cons]
    by_cases hfit_t : t.1 * m.shape.2 + t.2 < s.1 * s.2
    · -- the head entry still fits: its write succeeds and the failure is
      -- among the remaining entries
      obtain ⟨hg, hnz⟩ := hts t (List.mem_cons_self t ts)
      have hs2pos : 0 < s.2 := by
        rcases Nat.eq_zero_or_pos s.2 with h0 | h
        · rw [h0, Nat.mul_zero] at hfit_t
          omega
        · exact h
      have hrc1 : (t.1 * m.shape.2 + t.2) / s.2 < s.1 :=
        (Nat.div_lt_iff_lt_mul hs2pos).mpr hfit_t
      have hrc2 : (t.1 * m.shape.2 + t.2) % s.2 < s.2 :=
        Nat.mod_lt _ hs2pos
      have hunr : unravel_index (t.1 * m.shape.2 + t.2) s =
          .ok ((t.1 * m.shape.2 + t.2) / s.2, (t.1 * m.shape.2 + t.2) % s.2) := by
        unfold unravel_index
        rw [if_pos hfit_t]
      have hns1 : new.shape.1 = s.1 := by rw [hshape]
      have hns2 : new.shape.2 = s.2 := by rw [hshape]
      obtain ⟨new1, hset⟩ := set1_isOk (m := new)
        (i := (((t.1 * m.shape.2 + t.2) / s.2 : Nat) : Int))
        (j := (((t.1 * m.shape.2 + t.2) % s.2 : Nat) : Int)) (entryVal m t) hinv.1
        (le_trans (neg_nonpos.mpr (Int.natCast_nonneg _)) (Int.natCast_nonneg _))
        (by rw [hns1]; exact_mod_cast hrc1)
        (le_trans (neg_nonpos.mpr (Int.natCast_nonneg _)) (Int.natCast_nonneg _))
        (by rw [hns2]; exact_mod_cast hrc2)
      obtain ⟨hinv1, hshape1, _, _, _⟩ := set1_ok_spec hinv hset
      have hstep : reshapeStep m s new t = .ok new1 := by
        unfold reshapeStep
        rw [hunr]
        simp only
        rw [hg]
        exact hset
      rw [hstep]
      simp only [Bind.bind, Except.bind]
      obtain ⟨p, hp, hpk⟩ := hex
      have hpts : p ∈ ts := by
        rcases List.mem_cons.mp hp with rfl | h
        · omega
        · exact h
      exact ih new1 hinv1 (by rw [hshape1, hshape])
        (fun q hq => hts q (List.mem_cons_of_mem t hq)) ⟨p, hpts, hpk⟩
    · -- the head entry does not fit: np.unravel_index raises
      have hstep : reshapeStep m s new t = .error "ValueError: index is out of bounds" := by
        unfold reshapeStep unravel_index
        rw [if_neg hfit_t]
      rw [hstep]
      simp [Bind.bind, Except.bind]

/-- C7 amended: `reshape` never compares the total element counts.  It
succeeds whenever every stored entry's old flat coordinate `i*N + j` is
below the new total element count — in particular whenever the counts
match — and then returns a fresh matrix of the new shape, satisfying the
representation invariant, in which the entry at each new coordinate is
the source entry at the same flat coordinate (and the additive identity
beyond the source's flat range).  Conversely, whenever some stored
entry's flat coordinate does not fit the new shape it fails with the
ValueError raised by `np.unravel_index` — so it fails exactly when an
unfit stored entry exists, never on a count mismatch alone. -/
theorem reshape_spec (m : lil_matrix) (s : Nat × Nat) (hm : Inv m) :
    ((∀ p ∈ entryPairs m, p.1 * m.shape.2 + p.2 < s.1 * s.2) →
      ∃ m', reshape m s = .ok m' ∧ m'.shape = s ∧ Inv m' ∧
        ∀ a b : Nat, a < s.1 → b < s.2 →
          get1 m' a b =
            (if a * s.2 + b < m.shape.1 * m.shape.2 then
              get1 m (((a * s.2 + b) / m.shape.2 : Nat) : Int)
                (((a * s.2 + b) % m.shape.2 : Nat) : Int)
            else .ok 0)) ∧
    ((∃ p ∈ entryPairs m, s.1 * s.2 ≤ p.1 * m.shape.2 + p.2) →
      reshape m s = .error "ValueError: index is out of bounds") := by
  have facts := entryPairs_facts hm
  constructor
  case right =>
    intro hex
    rw [reshape_eq_fold]
    exact fold_set_error m s (entryPairs m) (emptyLil s.1 s.2) (emptyLil_inv _ _)
      rfl (fun p hp => ⟨(facts p hp).2.2.1, (facts p hp).2.2.2⟩) hex
  case left =>
  intro hfit
  rw [reshape_eq_fold]
  obtain ⟨m', hfold, hinv', hshape', hget'⟩ := fold_set_sim m s (entryPairs m)
    (emptyLil s.1 s.2) (fun _ => 0) (emptyLil_inv _ _) rfl
    (fun a b ha hb => get1_emptyLil ha hb)
    (fun p hp => ⟨hfit p hp, (facts p hp).2.2.1, (facts p hp).2.2.2⟩)
  refine ⟨m', hfold, hshape', hinv', ?_⟩
  intro a b ha hb
  rw [hget' a b ha hb]
  by_cases hk : a * s.2 + b < m.shape.1 * m.shape.2
  · rw [if_pos hk]
    have hN : 0 < m.shape.2 := by
      rcases Nat.eq_zero_or_pos m.shape.2 with h0 | h
      · rw [h0, Nat.mul_zero] at hk
        omega
      · exact h
    have hoi : (a * s.2 + b) / m.shape.2 < m.shape.1 :=
      (Nat.div_lt_iff_lt_mul hN).mpr hk
    have hoj : (a * s.2 + b) % m.shape.2 < m.shape.2 := Nat.mod_lt _ hN
    rw [get1_nat_eq hoi hoj]
    have hkey : ((a * s.2 + b) / m.shape.2) * m.shape.2 +
        ((a * s.2 + b) % m.shape.2) = a * s.2 + b := by
      rw [Nat.mul_comm]
      exact Nat.div_add_mod _ _
    by_cases hmem : ((a * s.2 + b) / m.shape.2, (a * s.2 + b) % m.shape.2) ∈
        entryPairs m
    · rw [reshapeMap_mem (entryPairs m) _ _ hmem hkey ?_]
      · rfl
      · intro q hq hqk
        have hq2 : q.2 < m.shape.2 := (facts q hq).2.1
        exact flatKey_inj
          (q := ((a * s.2 + b) / m.shape.2, (a * s.2 + b) % m.shape.2))
          hq2 hoj (hqk.trans hkey.symm)
    · have hnone : ∀ q ∈ entryPairs m,
          q.1 * m.shape.2 + q.2 ≠ a * s.2 + b := by
        intro q hq hqk
        apply hmem
        have hq2 : q.2 < m.shape.2 := (facts q hq).2.1
        have := flatKey_inj
          (q := ((a * s.2 + b) / m.shape.2, (a * s.2 + b) % m.shape.2))
          hq2 hoj (hqk.trans hkey.symm)
        rw [← this]
        exact hq
      rw [reshapeMap_not_mem (entryPairs m) _ hnone]
      have hnm : (a * s.2 + b) % m.shape.2 ∉
          m.rows.getD ((a * s.2 + b) / m.shape.2) [] := by
        intro hmm
        exact hmem (mem_entryPairs.mpr ⟨by rw [hm.1]; exact hoi, hmm⟩)
      obtain ⟨hsrt, hlen, _, _⟩ := hm.rowFacts ((a * s.2 + b) / m.shape.2)
      rw [rowLookup_eq_zero_of_not_mem hsrt hlen hnm]
  · rw [if_neg hk]
    have hnone : ∀ q ∈ entryPairs m, q.1 * m.shape.2 + q.2 ≠ a * s.2 + b := by
      intro q hq hqk
      have h1 := (facts q hq).1
      have h2 := (facts q hq).2.1
      have := flatKey_lt h1 h2
      omega
    rw [reshapeMap_not_mem (entryPairs m) _ hnone]

theorem reshape_spec_witness :
    (Inv sevenMatrix ∧
      (((∀ p ∈ entryPairs sevenMatrix,
          p.1 * sevenMatrix.shape.2 + p.2 < (1, 4).1 * (1, 4).2) →
        ∃ m', reshape sevenMatrix (1, 4) = .ok m' ∧ m'.shape = (1, 4) ∧ Inv m' ∧
          ∀ a b : Nat, a < (1, 4).1 → b < (1, 4).2 →
            get1 m' a b =
              (if a * (1, 4).2 + b <
                  sevenMatrix.shape.1 * sevenMatrix.shape.2 then
                get1 sevenMatrix
                  (((a * (1, 4).2 + b) / sevenMatrix.shape.2 : Nat) : Int)
                  (((a * (1, 4).2 + b) % sevenMatrix.shape.2 : Nat) : Int)
              else .ok 0)) ∧
      ((∃ p ∈ entryPairs sevenMatrix,
          (1, 4).1 * (1, 4).2 ≤ p.1 * sevenMatrix.shape.2 + p.2) →
        reshape sevenMatrix (1, 4) = .error "ValueError: index is out of bounds"))) ∧
    (Inv exampleMatrix ∧
      (((∀ p ∈ entryPairs exampleMatrix,
          p.1 * exampleMatrix.shape.2 + p.2 < (1, 3).1 * (1, 3).2) →
        ∃ m', reshape exampleMatrix (1, 3) = .ok m' ∧ m'.shape = (1, 3) ∧ Inv m' ∧
          ∀ a b : Nat, a < (1, 3).1 → b < (1, 3).2 →
            get1 m' a b =
              (if a * (1, 3).2 + b <
                  exampleMatrix.shape.1 * exampleMatrix.shape.2 then
                get1 exampleMatrix
                  (((a * (1, 3).2 + b) / exampleMatrix.shape.2 : Nat) : Int)
                  (((a * (1, 3).2 + b) % exampleMatrix.shape.2 : Nat) : Int)
              else .ok 0)) ∧
      ((∃ p ∈ entryPairs exampleMatrix,
          (1, 3).1 * (1, 3).2 ≤ p.1 * exampleMatrix.shape.2 + p.2) →
        reshape exampleMatrix (1, 3) =
          .error "ValueError: index is out of bounds"))) :=
  ⟨⟨by decide, reshape_spec sevenMatrix (1, 4) (by decide)⟩,
   ⟨by decide, reshape_spec exampleMatrix (1, 3) (by decide)⟩⟩

end LilSpec
